import Mathlib

/-!
Verification development for the credit portfolio Monte-Carlo engine
(`src/borrower.rs`, `src/exposure.rs`, `src/risk_group.rs`, `src/portfolio.rs`).

Modelling conventions:
* an `f64` value is modelled by `EF`: either NaN, `-inf`, `+inf`, or a finite
  value represented by an exact real number (rounding is not modelled);
  configuration inputs that the claims treat as plain numbers (weights,
  probabilities, valuations, `rho`, `eps`, random draws) are modelled
  directly as reals;
* the statrs `inverse_cdf` of the standard normal is an external library
  function; `Borrower.new` takes it as an explicit function argument;
* the rand/rand_pcg generators are external libraries; a generator is
  modelled as the stream of standard-normal draws it produces (`ℕ → ℝ`),
  and `gen::<u128>()` on the base generator as an abstract `ℕ → ℕ` stream;
* a Rust panic is modelled by `Option`/`none`;
* rayon's `par_chunks_mut` loop writes disjoint slices and merges each
  chunk's local accumulator into a mutex-guarded shared vector; the
  nondeterministic lock-acquisition order is modelled by an explicit
  `order : List ℕ` argument of `Portfolio.simulate`.
-/

namespace CreditPortfolio

/-- Model of an `f64` value: NaN, negative infinity, a finite value
(identified with an exact real number), or positive infinity. -/
inductive EF where
  | nan : EF
  | ninf : EF
  | fin : ℝ → EF
  | pinf : EF

/-- Model of Rust `f64::partial_cmp`: `none` exactly when one operand is
NaN, otherwise the usual order with `-inf` below all finite values and
`+inf` above them. -/
noncomputable def EF.pcmp : EF → EF → Option Ordering
  | .nan, _ => none
  | _, .nan => none
  | .ninf, .ninf => some .eq
  | .ninf, _ => some .lt
  | _, .ninf => some .gt
  | .pinf, .pinf => some .eq
  | .pinf, _ => some .gt
  | _, .pinf => some .lt
  | .fin x, .fin y => some (compare x y)

/-- Model of `f64` addition on `EF` (NaN propagates; opposite infinities
give NaN; overflow and signed zero are not modelled). -/
noncomputable def EF.add : EF → EF → EF
  | .nan, _ => .nan
  | _, .nan => .nan
  | .pinf, .ninf => .nan
  | .ninf, .pinf => .nan
  | .pinf, _ => .pinf
  | _, .pinf => .pinf
  | .ninf, _ => .ninf
  | _, .ninf => .ninf
  | .fin x, .fin y => .fin (x + y)

/-- Model of `f64` multiplication on `EF` (NaN propagates; infinity times
zero gives NaN; otherwise infinities follow the sign rules). -/
noncomputable def EF.mul : EF → EF → EF
  | .nan, _ => .nan
  | _, .nan => .nan
  | .pinf, .pinf => .pinf
  | .pinf, .ninf => .ninf
  | .ninf, .pinf => .ninf
  | .ninf, .ninf => .pinf
  | .pinf, .fin y => if y < 0 then .ninf else if y = 0 then .nan else .pinf
  | .ninf, .fin y => if y < 0 then .pinf else if y = 0 then .nan else .ninf
  | .fin x, .pinf => if x < 0 then .ninf else if x = 0 then .nan else .pinf
  | .fin x, .ninf => if x < 0 then .pinf else if x = 0 then .nan else .ninf
  | .fin x, .fin y => .fin (x * y)

/-- Model of `f64` division on `EF` (NaN propagates; `inf/inf` and `0/0`
give NaN; division of a nonzero finite value by zero gives a signed
infinity, with the unsigned model zero treated as positive). -/
noncomputable def EF.div : EF → EF → EF
  | .nan, _ => .nan
  | _, .nan => .nan
  | .pinf, .pinf => .nan
  | .pinf, .ninf => .nan
  | .ninf, .pinf => .nan
  | .ninf, .ninf => .nan
  | .pinf, .fin y => if y < 0 then .ninf else .pinf
  | .ninf, .fin y => if y < 0 then .pinf else .ninf
  | .fin _, .pinf => .fin 0
  | .fin _, .ninf => .fin 0
  | .fin x, .fin y =>
      if y = 0 then (if x = 0 then .nan else if x < 0 then .ninf else .pinf)
      else .fin (x / y)

/-- Model of `f64::sqrt` on `EF`: NaN on NaN and on negative inputs
(including `-inf`), `+inf` on `+inf`, and the real square root otherwise. -/
noncomputable def EF.sqrt : EF → EF
  | .nan => .nan
  | .ninf => .nan
  | .pinf => .pinf
  | .fin x => if x < 0 then .nan else .fin (Real.sqrt x)

/-- Simple container of a single exposure and its valuations
(`Exposure` in `src/exposure.rs`). -/
structure Exposure where
  /-- Valuations for each rating class. -/
  valuation : List ℝ

/-- Model of `Exposure::get_value`; the Rust indexing panic for an
out-of-range index is the `none` case. -/
def Exposure.get_value (e : Exposure) (index : ℕ) : Option ℝ :=
  e.valuation[index]?

/-- Model of `Exposure::num_values`. -/
def Exposure.num_values (e : Exposure) : ℕ :=
  e.valuation.length

/-- Model of the `Borrower` struct of `src/borrower.rs`; `n` is the number
of systematic risk factors (the dimension of the covariance matrix). -/
structure Borrower (n : ℕ) where
  risk_factor_weights : Fin n → ℝ
  rating : ℕ
  rho : ℝ
  eps : ℝ
  p_mig : List ℝ
  /-- Migration thresholds; values of `inverse_cdf`, hence possibly
  infinite (cumulative probability 0 or 1), modelled as `EF`. -/
  c_mig : List EF
  exposures : List Exposure
  value : ℝ
  valuations : List ℝ
  losses : List ℝ
  /-- The norm is `f64::NAN` until `set_norm` is called, so it is `EF`. -/
  norm : EF
  el : ℝ

/-- Cumulative sums as produced by the `scan` in `Borrower::new`:
`[p0, p0+p1, ...]`. -/
def cumSum (l : List ℝ) : List ℝ :=
  (l.scanl (· + ·) 0).tail

/-- Model of `Borrower::new`. The statrs standard-normal `inverse_cdf` is
external and passed as the function `inverseCdf`. -/
def Borrower.new (inverseCdf : ℝ → EF) (risk_factor_weights : Fin n → ℝ)
    (rating : ℕ) (rho eps : ℝ) (p_mig : List ℝ) : Borrower n :=
  let cum_p := cumSum p_mig
  let c_mig := (cum_p.take (cum_p.length - 1)).map inverseCdf
  { risk_factor_weights := risk_factor_weights
    rating := rating
    rho := rho
    eps := eps
    p_mig := p_mig
    c_mig := c_mig
    exposures := []
    value := 0
    valuations := List.replicate p_mig.length 0
    losses := List.replicate p_mig.length 0
    norm := EF.nan
    el := 0 }

/-- Model of `Borrower::expected_loss`: the zip of `p_mig` with `losses`,
mapped to products and summed. -/
def Borrower.expected_loss (b : Borrower n) : ℝ :=
  ((b.p_mig.zip b.losses).map fun pl => pl.1 * pl.2).sum

/-- Model of `Borrower::add_exposure`. The length-mismatch panic and the
panic of `self.valuations[self.rating]` for an out-of-range rating are the
`none` cases; with equal lengths the element loop is elementwise addition. -/
def Borrower.add_exposure (b : Borrower n) (exposure : Exposure) :
    Option (Borrower n) :=
  if b.valuations.length ≠ exposure.num_values then none
  else
    let valuations := b.valuations.zipWith (· + ·) exposure.valuation
    match valuations[b.rating]? with
    | none => none
    | some value =>
        let losses := valuations.map fun v => value - v
        let b1 : Borrower n :=
          { b with
            exposures := b.exposures ++ [exposure]
            value := value
            valuations := valuations
            losses := losses }
        some { b1 with el := b1.expected_loss }

/-- Model of `Borrower::set_norm`: the norm is the square root of the
quadratic form of the covariance matrix at the weight vector. -/
noncomputable def Borrower.set_norm (b : Borrower n)
    (cov : Matrix (Fin n) (Fin n) ℝ) : Borrower n :=
  { b with
    norm := EF.sqrt (.fin (Matrix.dotProduct b.risk_factor_weights
      (cov.mulVec b.risk_factor_weights))) }

/-- Model of `Borrower::risk_factor`: the dot product of the systematic
factor vector with the weights, divided by the stored norm. -/
noncomputable def Borrower.risk_factor (b : Borrower n)
    (risk_factors : Fin n → ℝ) : EF :=
  EF.div (.fin (Matrix.dotProduct risk_factors b.risk_factor_weights)) b.norm

/-- Model of `Borrower::asset_value`, the two-level factor model formula
written exactly as in the source. -/
noncomputable def Borrower.asset_value (b : Borrower n) (y e1 e2 : EF) : EF :=
  EF.add (EF.mul (EF.sqrt (.fin b.rho)) y)
    (EF.mul (EF.sqrt (.fin (1 - b.rho)))
      (EF.add (EF.mul (EF.sqrt (.fin (1 - b.eps))) e1)
        (EF.mul (EF.sqrt (.fin b.eps)) e2)))

/-- The loop of Rust `slice::binary_search_by` (from the standard library
`slice.rs`), with the comparator `|a| a.partial_cmp(&z).expect(..)`:
`none` models the panic of `expect` when `partial_cmp` is `none`,
`some (.inl m)` models `Ok(m)` and `some (.inr m)` models `Err(m)`. -/
noncomputable def binarySearchLoop (xs : List EF) (z : EF) (left right : ℕ) :
    Option (ℕ ⊕ ℕ) :=
  if _h : left < right then
    let mid := left + (right - left) / 2
    match EF.pcmp (xs.getD mid EF.nan) z with
    | none => none
    | some .lt => binarySearchLoop xs z (mid + 1) right
    | some .gt => binarySearchLoop xs z left mid
    | some .eq => some (.inl mid)
  else some (.inr left)
termination_by right - left
decreasing_by
  · have hd : (right - left) / 2 < right - left :=
      Nat.div_lt_self (by omega) (by norm_num)
    omega
  · have hd : (right - left) / 2 < right - left :=
      Nat.div_lt_self (by omega) (by norm_num)
    omega

/-- Model of `Borrower::migration`: binary search over the thresholds,
merging `Ok` and `Err` indices exactly as `unwrap_or_else(|i| i)` does;
`none` is the `expect` panic on a NaN comparison. -/
noncomputable def Borrower.migration (b : Borrower n) (z : EF) : Option ℕ :=
  (binarySearchLoop b.c_mig z 0 b.c_mig.length).map (Sum.elim id id)

/-- Model of `Borrower::get_loss`; `none` is the out-of-range panic. -/
def Borrower.get_loss (b : Borrower n) (index : ℕ) : Option ℝ :=
  b.losses[index]?

/-- Model of the `RiskGroup` struct of `src/risk_group.rs`: an ordered list
of borrowers sharing one group draw per trial. -/
structure RiskGroup (n : ℕ) where
  borrower : List (Borrower n)

/-- Model of `RiskGroup::new`. -/
def RiskGroup.new : RiskGroup n :=
  ⟨[]⟩

/-- Model of `RiskGroup::add_borrower`. -/
def RiskGroup.add_borrower (g : RiskGroup n) (b : Borrower n) : RiskGroup n :=
  ⟨g.borrower ++ [b]⟩

/-- Model of `RiskGroup::num_borrower`. -/
def RiskGroup.num_borrower (g : RiskGroup n) : ℕ :=
  g.borrower.length

/-- Model of `RiskGroup::set_norm`: applies `Borrower::set_norm` to every
member. -/
noncomputable def RiskGroup.set_norm (g : RiskGroup n)
    (cov : Matrix (Fin n) (Fin n) ℝ) : RiskGroup n :=
  ⟨g.borrower.map fun b => b.set_norm cov⟩

/-- The Schur complement of the leading pivot, as formed by one step of
the Cholesky recursion: subtract from the trailing minor the outer product
of the scaled first column `c i = A[i+1][0] / sqrt(A[0][0])`. -/
noncomputable def schurC (A : Matrix (Fin (m + 1)) (Fin (m + 1)) ℝ) :
    Matrix (Fin m) (Fin m) ℝ :=
  Matrix.of fun i j => A i.succ j.succ
    - A i.succ 0 / Real.sqrt (A 0 0) * (A j.succ 0 / Real.sqrt (A 0 0))

/-- Assembles the Cholesky factor of one recursion step: `sqrt(A[0][0])`
in the corner, zeros above, the scaled first column below, and the factor
of the Schur complement in the trailing block. -/
noncomputable def mkCholL (A : Matrix (Fin (m + 1)) (Fin (m + 1)) ℝ)
    (L : Matrix (Fin m) (Fin m) ℝ) : Matrix (Fin (m + 1)) (Fin (m + 1)) ℝ :=
  Matrix.of fun i j =>
    Fin.cases (Fin.cases (Real.sqrt (A 0 0)) (fun _ => 0) j)
      (fun i2 => Fin.cases (A i2.succ 0 / Real.sqrt (A 0 0))
        (fun j2 => L i2 j2) j) i

/-- The Cholesky factorization computed by `cov.cholesky(UPLO::Lower)`
(LAPACK `dpotrf` via ndarray-linalg), modelled over exact reals by the
textbook recursion `dpotrf` performs: take the square root of the leading
pivot, scale the first column, recurse on the Schur complement; `none`
models the `NonPositiveSemiDefiniteError` raised when a pivot is not
positive. -/
noncomputable def cholesky : (m : ℕ) → Matrix (Fin m) (Fin m) ℝ →
    Option (Matrix (Fin m) (Fin m) ℝ)
  | 0, _ => some 0
  | m + 1, A =>
    if 0 < A 0 0 then (cholesky m (schurC A)).map (mkCholL A)
    else none

/-- Model of the `Portfolio` struct of `src/portfolio.rs`; the Rust field
`risk_factors` (`cov.ncols()`) is the type index `n`. -/
structure Portfolio (n : ℕ) where
  cov : Matrix (Fin n) (Fin n) ℝ
  lower : Matrix (Fin n) (Fin n) ℝ
  risk_group : List (RiskGroup n)
  num_borrower : ℕ

/-- Model of `Portfolio::new`: the Cholesky factor is computed at
construction; its failure (`expect`) aborts before anything else, which is
the `none` case. -/
noncomputable def Portfolio.new (cov : Matrix (Fin n) (Fin n) ℝ) :
    Option (Portfolio n) :=
  (cholesky n cov).map fun lower =>
    { cov := cov, lower := lower, risk_group := [], num_borrower := 0 }

/-- Model of `Portfolio::add_risk_group`. -/
noncomputable def Portfolio.add_risk_group (P : Portfolio n) (g : RiskGroup n) :
    Portfolio n :=
  { P with
    risk_group := P.risk_group ++ [g.set_norm P.cov]
    num_borrower := P.num_borrower + g.num_borrower }

/-- Model of `Portfolio::expected_loss`. -/
def Portfolio.expected_loss (P : Portfolio n) : ℝ :=
  (P.risk_group.map fun rg => (rg.borrower.map Borrower.expected_loss).sum).sum

/-- The number of borrowers actually stored in the risk groups; equals the
`num_borrower` field for every portfolio built through
`Portfolio::add_risk_group`. -/
def totalBorrowers (P : Portfolio n) : ℕ :=
  (P.risk_group.map fun g => g.borrower.length).sum

/-- The body of the borrower loop of `Portfolio::trial`: systematic factor
`y`, asset value `z`, migration, loss lookup; `none` models a panic in
`migration` or `get_loss`. -/
noncomputable def borrowerLoss (b : Borrower n) (rf : Fin n → ℝ)
    (e1 e2 : ℝ) : Option ℝ :=
  let y := b.risk_factor rf
  let z := b.asset_value y (.fin e1) (.fin e2)
  (b.migration z).bind fun rating => b.get_loss rating

/-- The inner loop of `Portfolio::trial` over one risk group's borrowers:
each borrower draws `e1 = s k` from the shared generator stream and the
counter advances by one; returns the losses in borrower order and the
final stream position. -/
noncomputable def trialBorrowers (rf : Fin n → ℝ) (e2 : ℝ) (s : ℕ → ℝ) :
    List (Borrower n) → ℕ → Option (List ℝ × ℕ)
  | [], k => some ([], k)
  | b :: bs, k =>
    match borrowerLoss b rf (s k) e2 with
    | none => none
    | some loss =>
        (trialBorrowers rf e2 s bs (k + 1)).map fun r => (loss :: r.1, r.2)

/-- The outer loop of `Portfolio::trial` over risk groups: each group first
draws its own `e2 = s k`, then runs its borrowers on the subsequent draws;
the per-borrower losses are written to consecutive positions of the output
(modelled by list concatenation). -/
noncomputable def trialGroups (rf : Fin n → ℝ) (s : ℕ → ℝ) :
    List (RiskGroup n) → ℕ → Option (List ℝ × ℕ)
  | [], k => some ([], k)
  | rg :: rgs, k =>
    match trialBorrowers rf (s k) s rg.borrower (k + 1) with
    | none => none
    | some r1 =>
        (trialGroups rf s rgs r1.2).map fun r2 => (r1.1 ++ r2.1, r2.2)

/-- The correlated systematic factor vector of `Portfolio::trial`: the
first `n` draws of the stream multiplied by the Cholesky factor. -/
noncomputable def rfVec (P : Portfolio n) (s : ℕ → ℝ) (k : ℕ) : Fin n → ℝ :=
  P.lower.mulVec fun i => s (k + i.1)

/-- Model of `Portfolio::trial`. The generator argument is modelled as the
stream `s` of standard-normal draws it produces together with the current
position `k`; the returned number is the position after the trial (the
mutated generator). -/
noncomputable def Portfolio.trial (P : Portfolio n) (s : ℕ → ℝ) (k : ℕ) :
    Option (List ℝ × ℕ) :=
  trialGroups (rfVec P s k) s P.risk_group (k + n)

/-- Elementwise addition of loss vectors (`+=` on `Array1<f64>`). -/
def vecAdd (a b : List ℝ) : List ℝ :=
  a.zipWith (· + ·) b

/-- One chunk of `Portfolio::simulate`: runs the given number of trial
slots sequentially on one generator stream, collecting each trial's total
loss in order and accumulating the per-borrower losses into `acc` (the
chunk-local `loc_borr`). -/
noncomputable def chunkRun (P : Portfolio n) (s : ℕ → ℝ) :
    ℕ → ℕ → List ℝ → Option (List ℝ × List ℝ)
  | 0, _, acc => some ([], acc)
  | slots + 1, k, acc =>
    match P.trial s k with
    | none => none
    | some r =>
        (chunkRun P s slots r.2 (vecAdd acc r.1)).map fun q =>
          (r.1.sum :: q.1, q.2)

/-- Runs one task per chunk and collects the results; `none` models the
abort of the whole simulation when any chunk's worker panics. -/
def collectChunks {α β : Type} (f : α → Option β) : List α → Option (List β)
  | [] => some []
  | a :: l =>
    match f a with
    | none => none
    | some b => (collectChunks f l).map fun bs => b :: bs

/-- The stream identifiers of `Portfolio::simulate`: one `u128` draw of the
base generator per chunk, shifted left by one (wrapping) and with the low
bit set. The base generator `Pcg64::seed_from_u64(seed)` is external and
modelled as the abstract stream `baseGen` of its `gen::<u128>()` outputs. -/
def deriveStreams (baseGen : ℕ → ℕ) (num_chunks : ℕ) : List ℕ :=
  (List.range num_chunks).map fun c => (baseGen c * 2 % 2 ^ 128) ||| 1

/-- The number of trial slots of chunk `c` under `par_chunks_mut`:
`chunk_size`, except that the last chunk takes the remainder. -/
def chunkTrials (num_trials chunk_size c : ℕ) : ℕ :=
  min chunk_size (num_trials - c * chunk_size)

/-- Model of `Portfolio::simulate`. `sample stream` is the standard-normal
draw stream of `Pcg64::new(seed as u128, stream)` (the rand libraries are
external); `order` is the nondeterministic order in which the chunk workers
acquire the mutex and add their local accumulator into the shared one — a
permutation of the chunk indices. The per-trial totals are written to
disjoint slices, modelled by flattening in chunk order. -/
noncomputable def Portfolio.simulate (P : Portfolio n) (baseGen : ℕ → ℕ)
    (sample : ℕ → ℕ → ℝ) (num_trials chunk_size : ℕ) (order : List ℕ) :
    Option (List ℝ × List ℝ) :=
  let num_chunks := (num_trials + chunk_size - 1) / chunk_size
  let streams := deriveStreams baseGen num_chunks
  (collectChunks (fun c =>
      chunkRun P (sample (streams.getD c 0)) (chunkTrials num_trials chunk_size c)
        0 (List.replicate P.num_borrower 0)) (List.range num_chunks)).map
    fun rs =>
      let shared := order.foldl
        (fun acc c => vecAdd acc (rs.getD c ([], [])).2)
        (List.replicate P.num_borrower 0)
      ((rs.map Prod.fst).flatten, shared.map fun x => x / (num_trials : ℝ))

/-- Sequential run of a given number of trials on one stream, collecting
the per-borrower loss vector of every trial (reference for claim C3). -/
noncomputable def trialSeq (P : Portfolio n) (s : ℕ → ℝ) :
    ℕ → ℕ → Option (List (List ℝ))
  | 0, _ => some []
  | t + 1, k =>
    match P.trial s k with
    | none => none
    | some r => (trialSeq P s t r.2).map fun ls => r.1 :: ls

/-- Spec-side sequential reference for `Portfolio::simulate`, following the
claim's words: the trials are partitioned into `ceil(num_trials/chunk_size)`
consecutive chunks of at most `chunk_size` trials; chunk `c` runs its trials
sequentially on the generator built from the `c`-th sequentially derived
stream; the `j`-th per-trial entry is the sum of trial `j`'s per-borrower
losses, and the mean vector is the sum of all per-trial loss vectors
divided by `num_trials`. -/
noncomputable def Portfolio.simulateSpec (P : Portfolio n) (baseGen : ℕ → ℕ)
    (sample : ℕ → ℕ → ℝ) (num_trials chunk_size : ℕ) :
    Option (List ℝ × List ℝ) :=
  let num_chunks := (num_trials + chunk_size - 1) / chunk_size
  let streams := deriveStreams baseGen num_chunks
  (collectChunks (fun c =>
      trialSeq P (sample (streams.getD c 0))
        (chunkTrials num_trials chunk_size c) 0) (List.range num_chunks)).map
    fun ls =>
      let all := ls.flatten
      (all.map List.sum,
        (all.foldl vecAdd (List.replicate P.num_borrower 0)).map
          fun x => x / (num_trials : ℝ))

/-- Number of draws one call of `Portfolio::trial` consumes: `n` systematic
draws, then one group draw plus one draw per borrower for every group. -/
def trialDraws (P : Portfolio n) : ℕ :=
  n + (P.risk_group.map fun g => 1 + g.borrower.length).sum

/-- Position in the draw stream (relative to the start of the group phase)
of the group draw of the `i`-th risk group. -/
def groupOffset (P : Portfolio n) (i : ℕ) : ℕ :=
  ((P.risk_group.take i).map fun g => 1 + g.borrower.length).sum

/-- Flat output position of the first borrower of the `i`-th risk group. -/
def borrowerPos (P : Portfolio n) (i : ℕ) : ℕ :=
  ((P.risk_group.take i).map fun g => g.borrower.length).sum

/-- Lower-triangular predicate: everything strictly above the diagonal is
zero. -/
def LowerTriangular (L : Matrix (Fin m) (Fin m) ℝ) : Prop :=
  ∀ i j : Fin m, i < j → L i j = 0

/-- The quadratic form of a matrix. -/
def quadForm (A : Matrix (Fin m) (Fin m) ℝ) (x : Fin m → ℝ) : ℝ :=
  ∑ i, ∑ j, x i * A i j * x j

/-- Real positive definiteness, stated through the quadratic form. -/
def PosDefR (A : Matrix (Fin m) (Fin m) ℝ) : Prop :=
  ∀ x : Fin m → ℝ, x ≠ 0 → 0 < quadForm A x

/-- Symmetry of a matrix. -/
def Symm (A : Matrix (Fin m) (Fin m) ℝ) : Prop :=
  ∀ i j, A i j = A j i

/-! Helper lemmas about the float model. -/

theorem EF.pcmp_nan_right (e : EF) : EF.pcmp e .nan = none := by
  cases e <;> rfl

theorem EF.pcmp_fin_pinf (x : ℝ) : EF.pcmp (.fin x) .pinf = some .lt := rfl

theorem EF.pcmp_fin_ninf (x : ℝ) : EF.pcmp (.fin x) .ninf = some .gt := rfl

theorem EF.pcmp_fin_fin (x y : ℝ) :
    EF.pcmp (.fin x) (.fin y) = some (compare x y) := rfl

theorem EF.fin_one_mul (y : EF) : EF.mul (.fin 1) y = y := by
  cases y <;> simp [EF.mul]

theorem EF.add_fin_zero (y : EF) : EF.add y (.fin 0) = y := by
  cases y <;> simp [EF.add]

theorem EF.mul_fin_fin (x y : ℝ) : EF.mul (.fin x) (.fin y) = .fin (x * y) :=
  rfl

theorem EF.add_fin_fin (x y : ℝ) : EF.add (.fin x) (.fin y) = .fin (x + y) :=
  rfl

theorem EF.mul_nan_right (x : EF) : EF.mul x .nan = .nan := by
  cases x <;> rfl

theorem EF.add_nan_right (x : EF) : EF.add x .nan = .nan := by
  cases x <;> rfl

theorem EF.add_nan_left (x : EF) : EF.add .nan x = .nan := by
  cases x <;> rfl

theorem EF.div_fin_nan (x : ℝ) : EF.div (.fin x) .nan = .nan := by
  rfl

theorem EF.sqrt_fin (x : ℝ) :
    EF.sqrt (.fin x) = if x < 0 then .nan else .fin (Real.sqrt x) := rfl

/-- Order embedding of the non-NaN float values into the extended reals:
`-inf` to `⊥`, finite values to their real value, `+inf` to `⊤` (the value
at NaN is irrelevant and never used). It lets ordering facts about
threshold arrays that may contain infinities be stated uniformly. -/
noncomputable def EF.toEReal : EF → EReal
  | .nan => ⊥
  | .ninf => ⊥
  | .fin x => (x : ℝ)
  | .pinf => ⊤

/-- On a non-NaN left operand and a finite right operand, `partial_cmp`
is exactly the extended-real comparison of the embedded values. -/
theorem EF.pcmp_fin_right (a : EF) (ha : a ≠ EF.nan) (z : ℝ) :
    EF.pcmp a (.fin z) = some (compare a.toEReal (z : EReal)) := by
  cases a with
  | nan => exact absurd rfl ha
  | ninf =>
      show some Ordering.lt = some (compare (⊥ : EReal) (z : EReal))
      rw [compare_lt_iff_lt.mpr (EReal.bot_lt_coe z)]
  | pinf =>
      show some Ordering.gt = some (compare (⊤ : EReal) (z : EReal))
      rw [compare_gt_iff_gt.mpr (EReal.coe_lt_top z)]
  | fin x =>
      show some (compare x z) = some (compare (x : EReal) (z : EReal))
      rcases lt_trichotomy x z with h | h | h
      · rw [compare_lt_iff_lt.mpr h,
          compare_lt_iff_lt.mpr (EReal.coe_lt_coe_iff.mpr h)]
      · subst h
        rw [show compare x x = Ordering.eq from compare_eq_iff_eq.mpr rfl,
          show compare (x : EReal) (x : EReal) = Ordering.eq from
            compare_eq_iff_eq.mpr rfl]
      · rw [compare_gt_iff_gt.mpr h,
          compare_gt_iff_gt.mpr (EReal.coe_lt_coe_iff.mpr h)]

/-! Helper lemmas about the binary search loop. -/

theorem bsl_inr_right_of_all_lt (xs : List EF) (z : EF) :
    ∀ d left right, right - left ≤ d → left ≤ right →
      (∀ i, left ≤ i → i < right → EF.pcmp (xs.getD i EF.nan) z = some .lt) →
      binarySearchLoop xs z left right = some (.inr right) := by
  intro d
  induction d with
  | zero =>
      intro left right hd hle hall
      have heq : left = right := by omega
      rw [binarySearchLoop, dif_neg (by omega), heq]
  | succ d ih =>
      intro left right hd hle hall
      rw [binarySearchLoop]
      by_cases h : left < right
      · rw [dif_pos h]
        have hmid2 : left + (right - left) / 2 < right := by
          have := Nat.div_lt_self (show 0 < right - left by omega)
            (show 1 < 2 by norm_num)
          omega
        simp only [hall (left + (right - left) / 2) (Nat.le_add_right _ _) hmid2]
        exact ih (left + (right - left) / 2 + 1) right (by omega) (by omega)
          fun i h1 h2 => hall i (by omega) h2
      · rw [dif_neg h]
        have heq : left = right := by omega
        rw [heq]

theorem bsl_inr_left_of_all_gt (xs : List EF) (z : EF) :
    ∀ d left right, right - left ≤ d → left ≤ right →
      (∀ i, left ≤ i → i < right → EF.pcmp (xs.getD i EF.nan) z = some .gt) →
      binarySearchLoop xs z left right = some (.inr left) := by
  intro d
  induction d with
  | zero =>
      intro left right hd hle hall
      rw [binarySearchLoop, dif_neg (by omega)]
  | succ d ih =>
      intro left right hd hle hall
      rw [binarySearchLoop]
      by_cases h : left < right
      · rw [dif_pos h]
        have hmid2 : left + (right - left) / 2 < right := by
          have := Nat.div_lt_self (show 0 < right - left by omega)
            (show 1 < 2 by norm_num)
          omega
        simp only [hall (left + (right - left) / 2) (Nat.le_add_right _ _) hmid2]
        exact ih left (left + (right - left) / 2) (by omega) (by omega)
          fun i h1 h2 => hall i h1 (by omega)
      · rw [dif_neg h]

/-! Claim C10. -/

/-- C10: a borrower returned by `Borrower::new` has `norm = NaN`, and
`Borrower::risk_factor` called before `set_norm` therefore returns NaN for
every risk-factor vector. -/
theorem new_norm_nan_risk_factor_nan (inverseCdf : ℝ → EF)
    (w : Fin nn → ℝ) (rating : ℕ) (rho eps : ℝ) (p_mig : List ℝ)
    (rf : Fin nn → ℝ) :
    (Borrower.new inverseCdf w rating rho eps p_mig).norm = EF.nan ∧
    (Borrower.new inverseCdf w rating rho eps p_mig).risk_factor rf
      = EF.nan := by
  refine ⟨rfl, ?_⟩
  rw [Borrower.risk_factor]
  exact EF.div_fin_nan _

/-! Claim C9. -/

/-- C9: every stream identifier derived by `Portfolio::simulate` is an odd
integer below `2^128` (it is `(r << 1) | 1` computed in `u128`), hence a
valid odd Pcg64 stream increment. -/
theorem deriveStreams_odd (baseGen : ℕ → ℕ) (num_chunks c : ℕ)
    (hc : c < num_chunks) :
    Odd ((deriveStreams baseGen num_chunks).getD c 0) ∧
    (deriveStreams baseGen num_chunks).getD c 0 < 2 ^ 128 := by
  have hlen : c < (deriveStreams baseGen num_chunks).length := by
    simp [deriveStreams, hc]
  have hv : (deriveStreams baseGen num_chunks).getD c 0
      = (baseGen c * 2 % 2 ^ 128) ||| 1 := by
    rw [List.getD_eq_getElem _ _ hlen]
    simp [deriveStreams]
  rw [hv]
  constructor
  · have h : ((baseGen c * 2 % 2 ^ 128) ||| 1).testBit 0 = true := by
      rw [Nat.testBit_lor]
      simp
    rw [Nat.testBit_zero] at h
    rw [Nat.odd_iff]
    exact of_decide_eq_true h
  · exact Nat.or_lt_two_pow (Nat.mod_lt _ (by positivity)) (by norm_num)

/-- Witness for C9 at a concrete base stream and chunk index. -/
theorem deriveStreams_odd_witness :
    0 < 1 ∧ Odd ((deriveStreams (fun _ => 5) 1).getD 0 0) ∧
      (deriveStreams (fun _ => 5) 1).getD 0 0 < 2 ^ 128 :=
  ⟨by norm_num, deriveStreams_odd (fun _ => 5) 1 0 (by norm_num)⟩

/-! Claim C6. -/

/-- C6 (amended): for a borrower with `rho = 1` and `eps` in the data
model's range `[0,1]`, the asset value equals `y` exactly for every `y`
and all finite `e1`, `e2`. -/
theorem asset_value_rho_one (b : Borrower nn) (hrho : b.rho = 1)
    (h0 : 0 ≤ b.eps) (h1 : b.eps ≤ 1) (y : EF) (e1 e2 : ℝ) :
    b.asset_value y (.fin e1) (.fin e2) = y := by
  rw [Borrower.asset_value, hrho]
  rw [show EF.sqrt (.fin (1 : ℝ)) = .fin 1 by
    rw [EF.sqrt_fin, if_neg (by norm_num), Real.sqrt_one]]
  rw [show EF.sqrt (.fin (1 - (1 : ℝ))) = .fin 0 by
    rw [EF.sqrt_fin, if_neg (by norm_num)]
    norm_num]
  rw [show EF.sqrt (.fin (1 - b.eps)) = .fin (Real.sqrt (1 - b.eps)) by
    rw [EF.sqrt_fin, if_neg (by linarith)]]
  rw [show EF.sqrt (.fin b.eps) = .fin (Real.sqrt b.eps) by
    rw [EF.sqrt_fin, if_neg (by linarith)]]
  rw [EF.fin_one_mul, EF.mul_fin_fin, EF.mul_fin_fin, EF.add_fin_fin,
    EF.mul_fin_fin, zero_mul, EF.add_fin_zero]

/-- Borrower used to refute claim C6 as stated: `rho = 1`, `eps = 0`. -/
noncomputable def cexB6 : Borrower 1 :=
  { risk_factor_weights := fun _ => 1
    rating := 0
    rho := 1
    eps := 0
    p_mig := [1]
    c_mig := []
    exposures := []
    value := 0
    valuations := [0]
    losses := [0]
    norm := EF.nan
    el := 0 }

/-- Counterexample to C6 as stated: with `rho = 1` but a NaN
borrower-idiosyncratic draw `e1`, the asset value is NaN, not `y`
(in `f64`, `0 * NaN = NaN` and `y + NaN = NaN`). -/
theorem asset_value_rho_one_cex :
    cexB6.asset_value (EF.fin 0) EF.nan (EF.fin 0) = EF.nan ∧
    EF.nan ≠ EF.fin 0 := by
  constructor
  · show EF.add (EF.mul (EF.sqrt (.fin (1 : ℝ))) (.fin 0))
      (EF.mul (EF.sqrt (.fin (1 - (1 : ℝ))))
        (EF.add (EF.mul (EF.sqrt (.fin (1 - (0 : ℝ)))) EF.nan)
          (EF.mul (EF.sqrt (.fin (0 : ℝ))) (.fin 0)))) = EF.nan
    rw [EF.mul_nan_right, EF.add_nan_left, EF.mul_nan_right,
      EF.add_nan_right]
  · intro h
    exact EF.noConfusion h

/-- Witness for the amended C6 at a concrete borrower and inputs. -/
theorem asset_value_rho_one_witness :
    cexB6.rho = 1 ∧ 0 ≤ cexB6.eps ∧ cexB6.eps ≤ 1 ∧
    cexB6.asset_value (EF.fin 7) (EF.fin 2) (EF.fin 3) = EF.fin 7 :=
  ⟨rfl, by norm_num [cexB6], by norm_num [cexB6],
    asset_value_rho_one cexB6 rfl (by norm_num [cexB6])
      (by norm_num [cexB6]) (EF.fin 7) 2 3⟩

/-! Claim C5. -/

/-- C5 (amended): `migration` panics exactly on a NaN comparison: for a
nonempty threshold array, `z = NaN` panics; but an infinite `z` does not
panic when the thresholds are finite — `+inf` returns the last rating
index (the threshold count) and `-inf` returns index 0. -/
theorem migration_nan_panics_inf_returns (b : Borrower nn) :
    (b.c_mig ≠ [] → b.migration EF.nan = none) ∧
    ((∀ x ∈ b.c_mig, ∃ r : ℝ, x = EF.fin r) →
      b.migration EF.pinf = some b.c_mig.length ∧
      b.migration EF.ninf = some 0) := by
  constructor
  · intro hne
    have hlen : 0 < b.c_mig.length := List.length_pos.mpr hne
    rw [Borrower.migration, binarySearchLoop, dif_pos hlen]
    simp [EF.pcmp_nan_right]
  · intro hfin
    have hmem : ∀ i, i < b.c_mig.length → ∃ r : ℝ,
        b.c_mig.getD i EF.nan = EF.fin r := by
      intro i hi
      refine hfin _ ?_
      rw [List.getD_eq_getElem _ _ hi]
      exact List.getElem_mem hi
    constructor
    · rw [Borrower.migration,
        bsl_inr_right_of_all_lt b.c_mig EF.pinf b.c_mig.length 0
          b.c_mig.length (by omega) (by omega) ?_]
      · rfl
      · intro i _ hi
        obtain ⟨r, hr⟩ := hmem i hi
        rw [hr]
        exact EF.pcmp_fin_pinf r
    · rw [Borrower.migration,
        bsl_inr_left_of_all_gt b.c_mig EF.ninf b.c_mig.length 0
          b.c_mig.length (by omega) (by omega) ?_]
      · rfl
      · intro i _ hi
        obtain ⟨r, hr⟩ := hmem i hi
        rw [hr]
        exact EF.pcmp_fin_ninf r

/-- Borrower used for claim C5: one finite threshold (two rating
classes). -/
noncomputable def cexB5 : Borrower 1 :=
  { risk_factor_weights := fun _ => 1
    rating := 0
    rho := 1
    eps := 0
    p_mig := [9 / 10, 1 / 10]
    c_mig := [EF.fin 0]
    exposures := []
    value := 0
    valuations := [0, 0]
    losses := [0, 0]
    norm := EF.nan
    el := 0 }

/-- Counterexample to C5 as stated: the non-finite value `z = +inf` does
not abort `migration`; the call returns the rating index 1. -/
theorem migration_pinf_returns_cex :
    cexB5.migration EF.pinf = some 1 := by
  show (binarySearchLoop [EF.fin 0] EF.pinf 0 1).map (Sum.elim id id)
    = some 1
  rw [binarySearchLoop]
  norm_num [EF.pcmp]
  rw [binarySearchLoop]
  norm_num

/-- Witness for the amended C5 at the concrete borrower `cexB5`. -/
theorem migration_nan_inf_witness :
    cexB5.migration EF.nan = none ∧
    cexB5.migration EF.pinf = some cexB5.c_mig.length ∧
    cexB5.migration EF.ninf = some 0 ∧ cexB5.c_mig.length = 1 :=
  ⟨(migration_nan_panics_inf_returns cexB5).1 (by simp [cexB5]),
    ((migration_nan_panics_inf_returns cexB5).2 (by
      intro x hx
      simp only [cexB5] at hx
      simp at hx
      exact ⟨0, hx⟩)).1,
    ((migration_nan_panics_inf_returns cexB5).2 (by
      intro x hx
      simp only [cexB5] at hx
      simp at hx
      exact ⟨0, hx⟩)).2, rfl⟩

/-! Claim C1. -/

theorem sorted_getD_mono {α : Type} [Preorder α] (cs : List α) (d : α)
    (hs : cs.Sorted (· ≤ ·)) :
    ∀ i j, i ≤ j → j < cs.length → cs.getD i d ≤ cs.getD j d := by
  intro i j hij hj
  have hi : i < cs.length := lt_of_le_of_lt hij hj
  rcases Nat.lt_or_ge i j with h | h
  · rw [List.getD_eq_getElem _ _ hi, List.getD_eq_getElem _ _ hj]
    exact List.Sorted.rel_get_of_lt hs (by exact h)
  · have heq : i = j := by omega
    rw [heq]

theorem getD_map_of_lt {α β : Type} (f : α → β) (l : List α) (c : ℕ)
    (hc : c < l.length) (d : α) (d2 : β) :
    (l.map f).getD c d2 = f (l.getD c d) := by
  rw [List.getD_eq_getElem _ _ (by simpa using hc),
    List.getD_eq_getElem _ _ hc]
  simp

theorem toEReal_getD_mono (cs : List EF)
    (hs : (cs.map EF.toEReal).Sorted (· ≤ ·)) :
    ∀ i j, i ≤ j → j < cs.length →
      (cs.getD i EF.nan).toEReal ≤ (cs.getD j EF.nan).toEReal := by
  intro i j hij hj
  have h1 := sorted_getD_mono (cs.map EF.toEReal) ⊥ hs i j hij
    (by simpa using hj)
  rwa [getD_map_of_lt EF.toEReal cs i (by omega) EF.nan ⊥,
    getD_map_of_lt EF.toEReal cs j hj EF.nan ⊥] at h1

theorem bsl_sorted_char (cs : List EF) (z : ℝ)
    (hn : ∀ x ∈ cs, x ≠ EF.nan)
    (hs : (cs.map EF.toEReal).Sorted (· ≤ ·)) :
    ∀ d left right, right - left ≤ d → left ≤ right → right ≤ cs.length →
      (∀ i, i < left → (cs.getD i EF.nan).toEReal < (z : EReal)) →
      (∀ i, right ≤ i → i < cs.length →
        (z : EReal) < (cs.getD i EF.nan).toEReal) →
      ∃ r, binarySearchLoop cs (EF.fin z) left right = some r ∧
        ((∃ m, r = Sum.inl m ∧ m < cs.length ∧
            (cs.getD m EF.nan).toEReal = (z : EReal)) ∨
         (∃ m, r = Sum.inr m ∧ m ≤ cs.length ∧
           (∀ i, i < m → (cs.getD i EF.nan).toEReal < (z : EReal)) ∧
           (∀ i, m ≤ i → i < cs.length →
             (z : EReal) < (cs.getD i EF.nan).toEReal))) := by
  intro d
  induction d with
  | zero =>
      intro left right hd hle hlen hlo hhi
      refine ⟨Sum.inr left, ?_, Or.inr ⟨left, rfl, by omega, hlo, ?_⟩⟩
      · rw [binarySearchLoop, dif_neg (by omega)]
      · intro i h1 h2
        exact hhi i (by omega) h2
  | succ d ih =>
      intro left right hd hle hlen hlo hhi
      by_cases h : left < right
      · have hmid2 : left + (right - left) / 2 < right := by
          have := Nat.div_lt_self (show 0 < right - left by omega)
            (show 1 < 2 by norm_num)
          omega
        have hmidlen : left + (right - left) / 2 < cs.length := by omega
        have hprobe : EF.pcmp (cs.getD (left + (right - left) / 2) EF.nan)
            (EF.fin z)
            = some (compare (cs.getD (left + (right - left) / 2)
                EF.nan).toEReal (z : EReal)) := by
          refine EF.pcmp_fin_right _ (hn _ ?_) z
          rw [List.getD_eq_getElem _ _ hmidlen]
          exact List.getElem_mem hmidlen
        rw [binarySearchLoop, dif_pos h]
        rcases lt_trichotomy
          (cs.getD (left + (right - left) / 2) EF.nan).toEReal
          (z : EReal) with hcase | hcase | hcase
        · simp only [hprobe, compare_lt_iff_lt.mpr hcase]
          refine ih (left + (right - left) / 2 + 1) right (by omega)
            (by omega) hlen ?_ hhi
          intro i hi2
          rcases Nat.lt_or_ge i left with h3 | h3
          · exact hlo i h3
          · calc (cs.getD i EF.nan).toEReal
                ≤ (cs.getD (left + (right - left) / 2) EF.nan).toEReal :=
                  toEReal_getD_mono cs hs i _ (by omega) hmidlen
              _ < (z : EReal) := hcase
        · simp only [hprobe, compare_eq_iff_eq.mpr hcase]
          exact ⟨Sum.inl (left + (right - left) / 2), rfl,
            Or.inl ⟨_, rfl, hmidlen, hcase⟩⟩
        · simp only [hprobe, compare_gt_iff_gt.mpr hcase]
          refine ih left (left + (right - left) / 2) (by omega)
            (by omega) (by omega) hlo ?_
          intro i h1 h2
          calc (z : EReal)
              < (cs.getD (left + (right - left) / 2) EF.nan).toEReal :=
                hcase
            _ ≤ (cs.getD i EF.nan).toEReal :=
                toEReal_getD_mono cs hs _ i h1 h2
      · refine ⟨Sum.inr left, ?_, Or.inr ⟨left, rfl, by omega, hlo, ?_⟩⟩
        · rw [binarySearchLoop, dif_neg (by omega)]
        · intro i h1 h2
          exact hhi i (by omega) h2

/-- C1 (amended): over a non-decreasing threshold array free of NaN —
entries may be `-inf` or `+inf`, as zero migration probabilities at the
ends produce — `migration z` with finite `z` returns an index `r ≤ k-1`
such that all thresholds before `r` are at most `z` and all from `r` on
are at least `z` in the `f64` (extended-real) order; when the exact value
`z` does not occur among the thresholds, `r` is exactly the smallest
index `i` with `z ≤ c_mig[i]` (so the last rating index `k-1` when `z`
exceeds all thresholds). When `z` equals a repeated threshold value the
returned index holds `z` but need not be the smallest such index (see the
counterexample). -/
theorem migration_sorted_char (b : Borrower nn) (z : ℝ)
    (hn : ∀ x ∈ b.c_mig, x ≠ EF.nan)
    (hs : (b.c_mig.map EF.toEReal).Sorted (· ≤ ·)) :
    ∃ r, b.migration (EF.fin z) = some r ∧ r ≤ b.c_mig.length ∧
      (∀ i, i < r → (b.c_mig.getD i EF.nan).toEReal ≤ (z : EReal)) ∧
      (∀ i, r ≤ i → i < b.c_mig.length →
        (z : EReal) ≤ (b.c_mig.getD i EF.nan).toEReal) ∧
      (EF.fin z ∉ b.c_mig → ∀ i, i < r →
        (b.c_mig.getD i EF.nan).toEReal < (z : EReal)) := by
  obtain ⟨r, hr, hchar⟩ := bsl_sorted_char b.c_mig z hn hs b.c_mig.length
    0 b.c_mig.length (by omega) (by omega) (le_refl _) (by omega)
    (by omega)
  rw [Borrower.migration, hr]
  rcases hchar with ⟨m, hm, hmlen, hmz⟩ | ⟨m, hm, hmlen, hmlo, hmhi⟩
  · subst hm
    refine ⟨m, rfl, by omega, ?_, ?_, ?_⟩
    · intro i hi
      rw [← hmz]
      exact toEReal_getD_mono b.c_mig hs i m (by omega) hmlen
    · intro i h1 h2
      rw [← hmz]
      exact toEReal_getD_mono b.c_mig hs m i h1 h2
    · intro hnot
      exfalso
      refine hnot ?_
      have hne : b.c_mig.getD m EF.nan ≠ EF.nan := by
        refine hn _ ?_
        rw [List.getD_eq_getElem _ _ hmlen]
        exact List.getElem_mem hmlen
      have hfin : b.c_mig.getD m EF.nan = EF.fin z := by
        cases hcm : b.c_mig.getD m EF.nan with
        | nan => exact absurd hcm hne
        | ninf =>
            rw [hcm] at hmz
            exact absurd hmz (EReal.bot_lt_coe z).ne
        | pinf =>
            rw [hcm] at hmz
            exact absurd hmz (EReal.coe_lt_top z).ne'
        | fin y =>
            rw [hcm] at hmz
            rw [EReal.coe_eq_coe_iff.mp hmz]
      rw [← hfin, List.getD_eq_getElem _ _ hmlen]
      exact List.getElem_mem hmlen
  · subst hm
    exact ⟨m, rfl, hmlen, fun i hi => (hmlo i hi).le,
      fun i h1 h2 => (hmhi i h1 h2).le, fun _ i hi => hmlo i hi⟩

/-- Borrower used to refute claim C1 as stated: the zero middle migration
probability `p_mig = [1/2, 0, 1/2]` yields the repeated threshold array
`[Φ⁻¹(1/2), Φ⁻¹(1/2)] = [0, 0]`. -/
noncomputable def cexB1 : Borrower 1 :=
  { risk_factor_weights := fun _ => 1
    rating := 0
    rho := 1
    eps := 0
    p_mig := [1 / 2, 0, 1 / 2]
    c_mig := [EF.fin 0, EF.fin 0]
    exposures := []
    value := 0
    valuations := [0, 0, 0]
    losses := [0, 0, 0]
    norm := EF.nan
    el := 0 }

/-- Counterexample to C1 as stated: with the repeated thresholds `[0, 0]`
and `z = 0`, the smallest index `i` with `z ≤ c_mig[i]` is 0 (second
conjunct), but Rust's `binary_search_by` probes index 1 first, finds an
equal element there, and `migration` returns 1. -/
theorem migration_repeated_threshold_cex :
    cexB1.migration (EF.fin 0) = some 1 ∧
    cexB1.c_mig.getD 0 EF.nan = EF.fin 0 := by
  constructor
  · show (binarySearchLoop [EF.fin 0, EF.fin 0] (EF.fin 0) 0 2).map
      (Sum.elim id id) = some 1
    rw [binarySearchLoop]
    norm_num [EF.pcmp,
      show compare (0 : ℝ) 0 = Ordering.eq from compare_eq_iff_eq.mpr rfl]
  · rfl

/-- Borrower used for the C1 witness: thresholds `[-inf, 0]`, as
`Borrower::new` produces from the migration probabilities `[0, 1/2, 1/2]`
(the zero leading probability gives the threshold `inverse_cdf(0) =
-inf`). -/
noncomputable def cexW1 : Borrower 1 :=
  { risk_factor_weights := fun _ => 1
    rating := 0
    rho := 1
    eps := 0
    p_mig := [0, 1 / 2, 1 / 2]
    c_mig := [EF.ninf, EF.fin 0]
    exposures := []
    value := 0
    valuations := [0, 0, 0]
    losses := [0, 0, 0]
    norm := EF.nan
    el := 0 }

/-- Witness for the amended C1 at the concrete thresholds `[-inf, 0]`
(containing an infinite entry) with `z = 1` beyond all thresholds. -/
theorem migration_sorted_char_witness :
    ∃ r, cexW1.migration (EF.fin 1) = some r ∧ r ≤ cexW1.c_mig.length ∧
      (∀ i, i < r →
        (cexW1.c_mig.getD i EF.nan).toEReal ≤ ((1 : ℝ) : EReal)) ∧
      (∀ i, r ≤ i → i < cexW1.c_mig.length →
        ((1 : ℝ) : EReal) ≤ (cexW1.c_mig.getD i EF.nan).toEReal) ∧
      (EF.fin 1 ∉ cexW1.c_mig → ∀ i, i < r →
        (cexW1.c_mig.getD i EF.nan).toEReal < ((1 : ℝ) : EReal)) :=
  migration_sorted_char cexW1 1
    (by
      intro x hx
      rcases List.mem_cons.mp hx with h | h
      · subst h
        intro hc
        exact EF.noConfusion hc
      · rw [List.mem_singleton.mp h]
        intro hc
        exact EF.noConfusion hc)
    (by
      rw [show cexW1.c_mig.map EF.toEReal
          = [(⊥ : EReal), ((0 : ℝ) : EReal)] from rfl]
      simp [List.sorted_cons])

/-! Claim C7. -/

/-- C7: `add_exposure` fails exactly on a valuation-length mismatch; on
success it adds the exposure valuations elementwise, sets each loss entry
to the valuation at the current rating minus the valuation at that entry,
and recomputes the stored expected loss; and the concrete scenario of the
spec: adding exposures `[100, 80]` and `[50, 40]` to a borrower at rating
0 yields valuations `[150, 120]` and losses `[0, 30]`. -/
theorem add_exposure_spec :
    (∀ (b : Borrower nn) (e : Exposure),
      b.valuations.length ≠ e.num_values → b.add_exposure e = none) ∧
    (∀ (b : Borrower nn) (e : Exposure) (b2 : Borrower nn),
      b.add_exposure e = some b2 →
        b2.valuations.length = b.valuations.length ∧
        (∀ i, i < b.valuations.length →
          b2.valuations.getD i 0
            = b.valuations.getD i 0 + e.valuation.getD i 0) ∧
        b2.losses.length = b2.valuations.length ∧
        (∀ i, i < b2.valuations.length →
          b2.losses.getD i 0
            = b2.valuations.getD b.rating 0 - b2.valuations.getD i 0) ∧
        b2.el = ((b.p_mig.zip b2.losses).map fun pl => pl.1 * pl.2).sum) ∧
    (∃ b2 : Borrower 1,
      ((Borrower.new (fun _ => EF.fin 0) (fun _ => (1 : ℝ)) 0 1 0
          [9 / 10, 1 / 10]).add_exposure ⟨[100, 80]⟩).bind
        (fun b1 => b1.add_exposure ⟨[50, 40]⟩) = some b2 ∧
      b2.valuations = [150, 120] ∧ b2.losses = [0, 30]) := by
  refine ⟨?_, ?_, ?_⟩
  · intro b e hne
    rw [Borrower.add_exposure, if_pos hne]
  · intro b e b2 h
    rw [Borrower.add_exposure] at h
    by_cases hne : b.valuations.length ≠ e.num_values
    · rw [if_pos hne] at h
      exact absurd h (by simp)
    · rw [if_neg hne] at h
      simp only [] at h
      push_neg at hne
      have hlv : (b.valuations.zipWith (· + ·) e.valuation).length
          = b.valuations.length := by
        rw [List.length_zipWith]
        rw [Exposure.num_values] at hne
        omega
      cases hv : (b.valuations.zipWith (· + ·) e.valuation)[b.rating]? with
      | none =>
          rw [hv] at h
          exact absurd h (by simp)
      | some value =>
          rw [hv] at h
          have hb2 : _ = b2 := Option.some.inj h
          subst hb2
          have hval : ∀ i, i < b.valuations.length →
              (b.valuations.zipWith (· + ·) e.valuation).getD i 0
                = b.valuations.getD i 0 + e.valuation.getD i 0 := by
            intro i hi
            have hie : i < e.valuation.length := by
              rw [Exposure.num_values] at hne
              omega
            rw [List.getD_eq_getElem _ _ (by omega),
              List.getD_eq_getElem _ _ hi, List.getD_eq_getElem _ _ hie]
            simp [List.getElem_zipWith]
          have hvalue : value
              = (b.valuations.zipWith (· + ·) e.valuation).getD b.rating 0 := by
            rw [List.getD_eq_getElem?_getD, hv]
            rfl
          refine ⟨hlv, hval, by simp, ?_, rfl⟩
          intro i hi
          have hi2 : i < (b.valuations.zipWith (· + ·) e.valuation).length := by
            dsimp at hi
            omega
          dsimp
          rw [← hvalue, List.getD_eq_getElem _ _ (by simpa using hi2),
            List.getD_eq_getElem _ _ hi2]
          simp
  · refine ⟨{ risk_factor_weights := (fun _ => 1), rating := 0, rho := 1,
              eps := 0, p_mig := [9 / 10, 1 / 10], c_mig := [EF.fin 0],
              exposures := [⟨[100, 80]⟩, ⟨[50, 40]⟩], value := 150,
              valuations := [150, 120], losses := [0, 30], norm := EF.nan,
              el := 3 }, ?_, rfl, rfl⟩
    norm_num [Borrower.new, Borrower.add_exposure, Borrower.expected_loss,
      cumSum, Exposure.num_values, List.scanl, List.replicate_succ,
      List.zipWith_cons_cons, List.zip_cons_cons]

/-- Witness for C7: a freshly built borrower with one rating class rejects
an exposure with two valuations. -/
theorem add_exposure_spec_witness :
    (Borrower.new (fun _ => EF.fin 0) (fun _ => (1 : ℝ)) 0 1 0
        [1] : Borrower 1).valuations.length
      ≠ Exposure.num_values ⟨[1, 2]⟩ ∧
    (Borrower.new (fun _ => EF.fin 0) (fun _ => (1 : ℝ)) 0 1 0
        [1] : Borrower 1).add_exposure ⟨[1, 2]⟩ = none :=
  ⟨by norm_num [Borrower.new, Exposure.num_values],
    (@add_exposure_spec 1).1 _ _
      (by norm_num [Borrower.new, Exposure.num_values])⟩

/-! Claim C4. -/

theorem trialBorrowers_spec (rf : Fin nn → ℝ) (e2 : ℝ) (s : ℕ → ℝ) :
    ∀ (bs : List (Borrower nn)) (k : ℕ) (res : List ℝ × ℕ),
      trialBorrowers rf e2 s bs k = some res →
      res.2 = k + bs.length ∧ res.1.length = bs.length ∧
      ∀ j b, bs[j]? = some b →
        res.1[j]? = borrowerLoss b rf (s (k + j)) e2 := by
  intro bs
  induction bs with
  | nil =>
      intro k res h
      rw [trialBorrowers] at h
      have hres := Option.some.inj h
      have hres1 : res.1 = ([] : List ℝ) := by rw [← hres]
      have hres2 : res.2 = k := by rw [← hres]
      refine ⟨by rw [hres2]; rfl, by rw [hres1]; rfl, ?_⟩
      intro j b hj
      simp at hj
  | cons b bs ih =>
      intro k res h
      rw [trialBorrowers] at h
      cases hb : borrowerLoss b rf (s k) e2 with
      | none =>
          rw [hb] at h
          cases h
      | some loss =>
          rw [hb] at h
          cases ht : trialBorrowers rf e2 s bs (k + 1) with
          | none =>
              rw [ht] at h
              cases h
          | some r =>
              rw [ht] at h
              have hres := Option.some.inj h
              have hres1 : res.1 = loss :: r.1 := by rw [← hres]
              have hres2 : res.2 = r.2 := by rw [← hres]
              obtain ⟨h1, h2, h3⟩ := ih (k + 1) r ht
              refine ⟨?_, ?_, ?_⟩
              · rw [hres2, h1, List.length_cons]
                omega
              · rw [hres1, List.length_cons, List.length_cons, h2]
              · intro j b2 hj
                rw [hres1]
                cases j with
                | zero =>
                    rw [List.getElem?_cons_zero] at hj
                    cases hj
                    rw [List.getElem?_cons_zero, Nat.add_zero, hb]
                | succ j =>
                    rw [List.getElem?_cons_succ] at hj
                    rw [List.getElem?_cons_succ, h3 j b2 hj,
                      show k + (j + 1) = k + 1 + j from by omega]

theorem trialGroups_spec (rf : Fin nn → ℝ) (s : ℕ → ℝ) :
    ∀ (gs : List (RiskGroup nn)) (k : ℕ) (res : List ℝ × ℕ),
      trialGroups rf s gs k = some res →
      res.2 = k + (gs.map fun g => 1 + g.borrower.length).sum ∧
      res.1.length = (gs.map fun g => g.borrower.length).sum ∧
      ∀ i g, gs[i]? = some g → ∀ j b, g.borrower[j]? = some b →
        res.1[((gs.take i).map fun g => g.borrower.length).sum + j]?
          = borrowerLoss b rf
              (s (k + ((gs.take i).map fun g => 1 + g.borrower.length).sum
                + 1 + j))
              (s (k + ((gs.take i).map fun g => 1 + g.borrower.length).sum))
      := by
  intro gs
  induction gs with
  | nil =>
      intro k res h
      rw [trialGroups] at h
      have hres := Option.some.inj h
      have hres1 : res.1 = ([] : List ℝ) := by rw [← hres]
      have hres2 : res.2 = k := by rw [← hres]
      refine ⟨by rw [hres2]; simp, by rw [hres1]; simp, ?_⟩
      intro i g hi
      simp at hi
  | cons g gs ih =>
      intro k res h
      rw [trialGroups] at h
      cases hb : trialBorrowers rf (s k) s g.borrower (k + 1) with
      | none =>
          rw [hb] at h
          cases h
      | some r1 =>
          rw [hb] at h
          dsimp only [] at h
          cases ht : trialGroups rf s gs r1.2 with
          | none =>
              rw [ht] at h
              cases h
          | some r2 =>
              rw [ht] at h
              have hres := Option.some.inj h
              have hres1 : res.1 = r1.1 ++ r2.1 := by rw [← hres]
              have hres2 : res.2 = r2.2 := by rw [← hres]
              obtain ⟨hb1, hb2, hb3⟩ := trialBorrowers_spec rf (s k) s
                g.borrower (k + 1) r1 hb
              obtain ⟨hg1, hg2, hg3⟩ := ih r1.2 r2 ht
              refine ⟨?_, ?_, ?_⟩
              · rw [hres2, hg1, hb1, List.map_cons, List.sum_cons]
                omega
              · rw [hres1, List.length_append, hb2, hg2, List.map_cons,
                  List.sum_cons]
              · intro i g2 hi j b hj
                rw [hres1]
                cases i with
                | zero =>
                    rw [List.getElem?_cons_zero] at hi
                    cases hi
                    have hjlen : j < r1.1.length := by
                      rw [hb2]
                      exact (List.getElem?_eq_some_iff.mp hj).1
                    simp only [List.take_zero, List.map_nil, List.sum_nil,
                      Nat.zero_add, Nat.add_zero]
                    rw [List.getElem?_append_left hjlen, hb3 j b hj]
                | succ i =>
                    rw [List.getElem?_cons_succ] at hi
                    have hpos : r1.1.length
                        ≤ (((g :: gs).take (i + 1)).map
                            (fun g => g.borrower.length)).sum + j := by
                      simp only [List.take_succ_cons, List.map_cons,
                        List.sum_cons]
                      omega
                    rw [List.getElem?_append_right hpos]
                    have harg : (((g :: gs).take (i + 1)).map
                        (fun g => g.borrower.length)).sum + j - r1.1.length
                        = ((gs.take i).map fun g => g.borrower.length).sum
                          + j := by
                      simp only [List.take_succ_cons, List.map_cons,
                        List.sum_cons]
                      omega
                    rw [harg, hg3 i g2 hi j b hj]
                    have hoff : r1.2 + ((gs.take i).map
                        fun g => 1 + g.borrower.length).sum
                        = k + (((g :: gs).take (i + 1)).map
                            fun g => 1 + g.borrower.length).sum := by
                      simp only [List.take_succ_cons, List.map_cons,
                        List.sum_cons]
                      omega
                    rw [show r1.2 + ((gs.take i).map
                        fun g => 1 + g.borrower.length).sum + 1 + j
                        = k + (((g :: gs).take (i + 1)).map
                            fun g => 1 + g.borrower.length).sum + 1 + j
                      from by omega, hoff]

theorem trialBorrowers_congr (rf : Fin nn → ℝ) (e2 : ℝ) (s s2 : ℕ → ℝ) :
    ∀ (bs : List (Borrower nn)) (k : ℕ),
      (∀ m, k ≤ m → m < k + bs.length → s2 m = s m) →
      trialBorrowers rf e2 s2 bs k = trialBorrowers rf e2 s bs k := by
  intro bs
  induction bs with
  | nil => intro k hag; rfl
  | cons b bs ih =>
      intro k hag
      rw [trialBorrowers, trialBorrowers,
        hag k (le_refl k) (by rw [List.length_cons]; omega),
        ih (k + 1) fun m h1 h2 => hag m (by omega)
          (by rw [List.length_cons]; omega)]

theorem trialGroups_congr (rf : Fin nn → ℝ) (s s2 : ℕ → ℝ) :
    ∀ (gs : List (RiskGroup nn)) (k : ℕ),
      (∀ m, k ≤ m →
        m < k + (gs.map fun g => 1 + g.borrower.length).sum → s2 m = s m) →
      trialGroups rf s2 gs k = trialGroups rf s gs k := by
  intro gs
  induction gs with
  | nil => intro k hag; rfl
  | cons g gs ih =>
      intro k hag
      have hlen : ∀ m, k ≤ m → m < k + (1 + g.borrower.length) →
          s2 m = s m := by
        intro m h1 h2
        refine hag m h1 ?_
        rw [List.map_cons, List.sum_cons]
        omega
      rw [trialGroups, trialGroups, hlen k (le_refl k) (by omega),
        trialBorrowers_congr rf (s k) s s2 g.borrower (k + 1)
          fun m h1 h2 => hlen m (by omega) (by omega)]
      cases hb : trialBorrowers rf (s k) s g.borrower (k + 1) with
      | none => rfl
      | some r1 =>
          obtain ⟨hb1, -, -⟩ := trialBorrowers_spec rf (s k) s
            g.borrower (k + 1) r1 hb
          have hih := ih r1.2 fun m h1 h2 => hag m (by omega) (by
            rw [List.map_cons, List.sum_cons]
            omega)
          simp only [hih]

/-- C4: `Portfolio::trial` consumes draws in exactly the order systematic
factors first (`n` draws), then per risk group in order one group draw
followed by one draw per borrower in order — `n + sum over groups of
(1 + group size)` draws in total (the generator ends exactly there); the
loss of borrower `j` of group `i` is written to flat output position
`borrowerPos i + j` and is computed from the group draw at stream offset
`n + groupOffset i` and the borrower draw at offset
`n + groupOffset i + 1 + j`; and the trial reads no draw outside the
consumed range. -/
theorem trial_draw_order (P : Portfolio nn) (s : ℕ → ℝ) (k : ℕ)
    (out : List ℝ) (k2 : ℕ) (h : P.trial s k = some (out, k2)) :
    k2 = k + trialDraws P ∧ out.length = totalBorrowers P ∧
    (∀ i g, P.risk_group[i]? = some g → ∀ j b, g.borrower[j]? = some b →
      out[borrowerPos P i + j]?
        = borrowerLoss b (rfVec P s k)
            (s (k + nn + groupOffset P i + 1 + j))
            (s (k + nn + groupOffset P i))) ∧
    (∀ s2 : ℕ → ℝ, (∀ m, m < trialDraws P → s2 (k + m) = s (k + m)) →
      P.trial s2 k = P.trial s k) := by
  rw [Portfolio.trial] at h
  obtain ⟨h1, h2, h3⟩ := trialGroups_spec (rfVec P s k) s P.risk_group
    (k + nn) (out, k2) h
  have h1x : k2 = k + nn
      + (P.risk_group.map fun g => 1 + g.borrower.length).sum := h1
  have h2x : out.length
      = (P.risk_group.map fun g => g.borrower.length).sum := h2
  refine ⟨?_, ?_, ?_, ?_⟩
  · rw [trialDraws]
    omega
  · rw [totalBorrowers]
    exact h2x
  · intro i g hi j b hj
    rw [borrowerPos, groupOffset]
    exact h3 i g hi j b hj
  · intro s2 hag
    rw [Portfolio.trial, Portfolio.trial]
    have hrf : rfVec P s2 k = rfVec P s k := by
      rw [rfVec, rfVec]
      have hfa : (fun i : Fin nn => s2 (k + i.1))
          = fun i : Fin nn => s (k + i.1) := by
        funext i
        refine hag i.1 ?_
        have hi := i.isLt
        rw [trialDraws]
        omega
      rw [hfa]
    rw [hrf]
    exact trialGroups_congr (rfVec P s k) s s2 P.risk_group (k + nn)
      fun m hm1 hm2 => by
        have hm3 : m - k < trialDraws P := by
          rw [trialDraws]
          omega
        have h4 := hag (m - k) hm3
        rw [show k + (m - k) = m from by omega] at h4
        exact h4

/-- Borrower used in the concrete portfolio witnesses: a single rating
class (empty threshold array), so its migration returns index 0 and its
loss is `losses[0] = 5` whatever the draws. -/
noncomputable def cexPB : Borrower 1 :=
  { risk_factor_weights := fun _ => 1
    rating := 0
    rho := 1 / 2
    eps := 1 / 2
    p_mig := [1]
    c_mig := []
    exposures := []
    value := 5
    valuations := [5]
    losses := [5]
    norm := EF.fin 1
    el := 5 }

/-- Concrete one-factor, one-group, one-borrower portfolio for the
witnesses. -/
noncomputable def cexP : Portfolio 1 :=
  { cov := 1
    lower := 1
    risk_group := [⟨[cexPB]⟩]
    num_borrower := 1 }

theorem cexPB_migration (z : EF) : cexPB.migration z = some 0 := by
  rw [Borrower.migration, show cexPB.c_mig = [] from rfl]
  rw [binarySearchLoop, dif_neg (by norm_num)]
  rfl

theorem cexP_trial (s : ℕ → ℝ) (k : ℕ) :
    cexP.trial s k = some ([5], k + 3) := by
  rw [Portfolio.trial, show cexP.risk_group = [⟨[cexPB]⟩] from rfl]
  simp only [trialGroups, trialBorrowers, borrowerLoss, cexPB_migration,
    show (some 0).bind (fun rating => cexPB.get_loss rating) = some 5
      from rfl]
  norm_num

/-- Witness for C4 at the concrete portfolio: one systematic factor, one
group with one borrower — exactly `1 + (1 + 1) = 3` draws are consumed and
the single output slot holds the borrower's loss. -/
theorem trial_draw_order_witness :
    cexP.trial (fun _ => 0) 0 = some ([5], 3) ∧
    3 = 0 + trialDraws cexP ∧
    ([5] : List ℝ).length = totalBorrowers cexP := by
  have heval : cexP.trial (fun _ => 0) 0 = some ([5], 3) := cexP_trial _ 0
  exact ⟨heval, (trial_draw_order cexP (fun _ => 0) 0 [5] 3 heval).1,
    (trial_draw_order cexP (fun _ => 0) 0 [5] 3 heval).2.1⟩

/-! Helper lemmas about loss-vector accumulation, for claims C2 and C3. -/

theorem vecAdd_comm (a b : List ℝ) : vecAdd a b = vecAdd b a := by
  rw [vecAdd, vecAdd]
  exact List.zipWith_comm_of_comm _ (fun x y => add_comm x y) a b

theorem vecAdd_assoc (a b c : List ℝ) :
    vecAdd (vecAdd a b) c = vecAdd a (vecAdd b c) := by
  induction a generalizing b c with
  | nil => rfl
  | cons x a ih =>
      cases b with
      | nil => rfl
      | cons y b =>
          cases c with
          | nil => rfl
          | cons z c =>
              show (x + y + z) :: vecAdd (vecAdd a b) c
                = (x + (y + z)) :: vecAdd a (vecAdd b c)
              rw [ih, add_assoc]

theorem vecAdd_zero_left (v : List ℝ) :
    vecAdd (List.replicate v.length 0) v = v := by
  induction v with
  | nil => rfl
  | cons x v ih =>
      show (0 + x) :: vecAdd (List.replicate v.length 0) v = x :: v
      rw [ih, zero_add]

theorem vecAdd_zero_right (v : List ℝ) :
    vecAdd v (List.replicate v.length 0) = v := by
  rw [vecAdd_comm]
  exact vecAdd_zero_left v

theorem vecAdd_length (a b : List ℝ) :
    (vecAdd a b).length = min a.length b.length :=
  List.length_zipWith _ _ _

theorem foldl_vecAdd_length (N : ℕ) :
    ∀ (ls : List (List ℝ)) (acc : List ℝ), acc.length = N →
      (∀ v ∈ ls, v.length = N) →
      (ls.foldl vecAdd acc).length = N := by
  intro ls
  induction ls with
  | nil => intro acc ha _; exact ha
  | cons v ls ih =>
      intro acc ha hv
      rw [List.foldl_cons]
      refine ih _ ?_ fun w hw => hv w (List.mem_cons_of_mem _ hw)
      rw [vecAdd_length, ha, hv v (List.mem_cons_self _ _)]
      omega

theorem foldl_vecAdd_pull (N : ℕ) :
    ∀ (ls : List (List ℝ)) (acc : List ℝ), acc.length = N →
      (∀ v ∈ ls, v.length = N) →
      ls.foldl vecAdd acc
        = vecAdd acc (ls.foldl vecAdd (List.replicate N 0)) := by
  intro ls
  induction ls with
  | nil =>
      intro acc ha _
      rw [List.foldl_nil, List.foldl_nil, ← ha, vecAdd_zero_right]
  | cons v ls ih =>
      intro acc ha hv
      have hvN : v.length = N := hv v (List.mem_cons_self _ _)
      have htail : ∀ w ∈ ls, w.length = N :=
        fun w hw => hv w (List.mem_cons_of_mem _ hw)
      rw [List.foldl_cons, List.foldl_cons,
        ih (vecAdd acc v) (by rw [vecAdd_length, ha, hvN]; omega) htail,
        ih (vecAdd (List.replicate N 0) v)
          (by rw [vecAdd_length, hvN, List.length_replicate]; omega) htail,
        show vecAdd (List.replicate N 0) v = v from hvN ▸ vecAdd_zero_left v,
        vecAdd_assoc]

theorem foldl_vecAdd_flatten (N : ℕ) :
    ∀ (L : List (List (List ℝ))), (∀ ls ∈ L, ∀ v ∈ ls, v.length = N) →
      L.foldl (fun acc ls => vecAdd acc (ls.foldl vecAdd (List.replicate N 0)))
          (List.replicate N 0)
        = L.flatten.foldl vecAdd (List.replicate N 0) := by
  have main : ∀ (L : List (List (List ℝ))) (acc : List ℝ), acc.length = N →
      (∀ ls ∈ L, ∀ v ∈ ls, v.length = N) →
      L.foldl (fun acc ls => vecAdd acc (ls.foldl vecAdd (List.replicate N 0)))
          acc
        = L.flatten.foldl vecAdd acc := by
    intro L
    induction L with
    | nil => intro acc _ _; rfl
    | cons ls L ih =>
        intro acc ha hL
        have hls : ∀ v ∈ ls, v.length = N := hL ls (List.mem_cons_self _ _)
        have htail : ∀ ms ∈ L, ∀ v ∈ ms, v.length = N :=
          fun ms hm => hL ms (List.mem_cons_of_mem _ hm)
        rw [List.foldl_cons, List.flatten_cons, List.foldl_append,
          ih _ (by
            rw [vecAdd_length, ha,
              foldl_vecAdd_length N ls _ (by rw [List.length_replicate]) hls]
            omega) htail,
          foldl_vecAdd_pull N ls acc ha hls]
  intro L hL
  exact main L _ (List.length_replicate _ _) hL

theorem foldl_vecAdd_perm (A : ℕ → List ℝ) :
    ∀ (l1 l2 : List ℕ), l1.Perm l2 → ∀ b : List ℝ,
      l1.foldl (fun acc c => vecAdd acc (A c)) b
        = l2.foldl (fun acc c => vecAdd acc (A c)) b := by
  intro l1 l2 hp
  induction hp with
  | nil => intro b; rfl
  | cons x h ih =>
      intro b
      rw [List.foldl_cons, List.foldl_cons, ih]
  | swap x y l =>
      intro b
      rw [List.foldl_cons, List.foldl_cons, List.foldl_cons, List.foldl_cons,
        vecAdd_assoc, vecAdd_assoc, vecAdd_comm (A y) (A x)]
  | trans h1 h2 ih1 ih2 =>
      intro b
      rw [ih1, ih2]

theorem foldl_congr_mem {β : Type} (f g : β → ℕ → β) :
    ∀ (l : List ℕ) (b : β), (∀ c ∈ l, ∀ acc, f acc c = g acc c) →
      l.foldl f b = l.foldl g b := by
  intro l
  induction l with
  | nil => intro b _; rfl
  | cons x l ih =>
      intro b hfg
      rw [List.foldl_cons, List.foldl_cons,
        hfg x (List.mem_cons_self _ _) b,
        ih _ fun c hc acc => hfg c (List.mem_cons_of_mem _ hc) acc]

theorem foldl_range_eq_foldl {α β : Type} (F : β → α → β) (dflt : α) :
    ∀ (L : List α) (b : β),
      (List.range L.length).foldl (fun acc c => F acc (L.getD c dflt)) b
        = L.foldl F b := by
  intro L
  induction L using List.reverseRecOn with
  | nil => intro b; rfl
  | append_singleton M a ih =>
      intro b
      rw [List.length_append, List.length_singleton, List.range_succ,
        List.foldl_append, List.foldl_append]
      rw [foldl_congr_mem _ (fun acc c => F acc (M.getD c dflt)) _ b
        (fun c hc acc => by
          rw [List.getD_append _ _ _ _ (List.mem_range.mp hc)]),
        ih]
      rw [List.foldl_cons, List.foldl_nil, List.foldl_cons, List.foldl_nil]
      rw [List.getD_eq_getElem _ _ (by
        rw [List.length_append, List.length_singleton]
        omega)]
      rw [List.getElem_append_right (le_refl M.length)]
      simp

theorem collectChunks_map_rel {α β γ : Type} (f : α → Option β) (g : β → γ) :
    ∀ l : List α,
      collectChunks (fun a => (f a).map g) l
        = (collectChunks f l).map (List.map g) := by
  intro l
  induction l with
  | nil => rfl
  | cons a l ih =>
      rw [collectChunks, collectChunks]
      cases hfa : f a with
      | none => rfl
      | some b =>
          simp only [Option.map_some]
          rw [ih]
          cases collectChunks f l with
          | none => rfl
          | some bs => rfl

theorem collectChunks_congr {α β : Type} (f g : α → Option β) :
    ∀ l : List α, (∀ a ∈ l, f a = g a) →
      collectChunks f l = collectChunks g l := by
  intro l
  induction l with
  | nil => intro _; rfl
  | cons a l ih =>
      intro hfg
      rw [collectChunks, collectChunks, hfg a (List.mem_cons_self _ _),
        ih fun x hx => hfg x (List.mem_cons_of_mem _ hx)]

theorem collectChunks_length {α β : Type} (f : α → Option β) :
    ∀ (l : List α) (bs : List β),
      collectChunks f l = some bs → bs.length = l.length := by
  intro l
  induction l with
  | nil =>
      intro bs h
      have := Option.some.inj h
      rw [← this]
      rfl
  | cons a l ih =>
      intro bs h
      rw [collectChunks] at h
      cases hfa : f a with
      | none => rw [hfa] at h; cases h
      | some b =>
          rw [hfa] at h
          cases hl : collectChunks f l with
          | none => rw [hl] at h; cases h
          | some cs =>
              rw [hl] at h
              have := Option.some.inj h
              rw [← this, List.length_cons, List.length_cons, ih cs hl]

theorem collectChunks_mem {α β : Type} (f : α → Option β) :
    ∀ (l : List α) (bs : List β), collectChunks f l = some bs →
      ∀ b ∈ bs, ∃ a ∈ l, f a = some b := by
  intro l
  induction l with
  | nil =>
      intro bs h b hb
      have := Option.some.inj h
      rw [← this] at hb
      simp at hb
  | cons a l ih =>
      intro bs h b hb
      rw [collectChunks] at h
      cases hfa : f a with
      | none => rw [hfa] at h; cases h
      | some b2 =>
          rw [hfa] at h
          cases hl : collectChunks f l with
          | none => rw [hl] at h; cases h
          | some cs =>
              rw [hl] at h
              have := Option.some.inj h
              rw [← this] at hb
              rcases List.mem_cons.mp hb with hb2 | hb2
              · exact ⟨a, List.mem_cons_self _ _, by rw [hfa, hb2]⟩
              · obtain ⟨a2, ha2, hfa2⟩ := ih cs hl b hb2
                exact ⟨a2, List.mem_cons_of_mem _ ha2, hfa2⟩

theorem trial_length (P : Portfolio nn) (s : ℕ → ℝ) (k : ℕ)
    (r : List ℝ × ℕ) (h : P.trial s k = some r) :
    r.1.length = totalBorrowers P := by
  rw [Portfolio.trial] at h
  rw [totalBorrowers]
  exact (trialGroups_spec (rfVec P s k) s P.risk_group (k + nn) r h).2.1

theorem trialSeq_spec (P : Portfolio nn) (s : ℕ → ℝ) :
    ∀ (t k : ℕ) (ls : List (List ℝ)), trialSeq P s t k = some ls →
      ls.length = t ∧ ∀ v ∈ ls, v.length = totalBorrowers P := by
  intro t
  induction t with
  | zero =>
      intro k ls h
      rw [trialSeq] at h
      have := Option.some.inj h
      rw [← this]
      exact ⟨rfl, by simp⟩
  | succ t ih =>
      intro k ls h
      rw [trialSeq] at h
      cases ht : P.trial s k with
      | none => rw [ht] at h; cases h
      | some r =>
          rw [ht] at h
          dsimp only [] at h
          cases h2 : trialSeq P s t r.2 with
          | none => rw [h2] at h; cases h
          | some ls0 =>
              rw [h2] at h
              have hres := Option.some.inj h
              obtain ⟨hl, hv⟩ := ih r.2 ls0 h2
              constructor
              · rw [← hres, List.length_cons, hl]
              · intro v hv2
                rw [← hres] at hv2
                rcases List.mem_cons.mp hv2 with hv3 | hv3
                · rw [hv3]
                  exact trial_length P s k r ht
                · exact hv v hv3

theorem chunkRun_eq (P : Portfolio nn) (s : ℕ → ℝ) :
    ∀ (slots k : ℕ) (acc : List ℝ),
      chunkRun P s slots k acc
        = (trialSeq P s slots k).map fun ls =>
            (ls.map List.sum, ls.foldl vecAdd acc) := by
  intro slots
  induction slots with
  | zero => intro k acc; rfl
  | succ t ih =>
      intro k acc
      rw [chunkRun, trialSeq]
      cases ht : P.trial s k with
      | none => rfl
      | some r =>
          dsimp only []
          rw [ih r.2 (vecAdd acc r.1)]
          cases h2 : trialSeq P s t r.2 with
          | none => rfl
          | some ls => rfl

/-! Order-invariance of the accumulator merge in the exact-real model.
This supports the claim C2 verdict: in the model, where elementwise
addition is commutative and associative, the mutex merge is invariant
under the lock-acquisition order — which is the design's evident intent.
The `f64` program does not share this property: float addition is not
associative, so the nondeterministically ordered `*share += &loc_borr`
merges can change low-order bits of the per-borrower means between two
identical calls, and the bit-identical reproducibility claimed for
`simulate` fails for the per-borrower mean vector (it does hold for the
per-trial vector, whose slices are written without any ordering). -/

/-- Lemma (exact-real model): for a fixed portfolio, base generator,
sampler, `num_trials` and `chunk_size`, any two lock orders (permutations
of the chunk indices) produce equal outputs. This is a property of the
real-valued model only; it is not claimed for the `f64` program. -/
theorem simulate_order_invariant (P : Portfolio nn) (baseGen : ℕ → ℕ)
    (sample : ℕ → ℕ → ℝ) (num_trials chunk_size : ℕ)
    (order order2 : List ℕ)
    (h1 : order.Perm
      (List.range ((num_trials + chunk_size - 1) / chunk_size)))
    (h2 : order2.Perm
      (List.range ((num_trials + chunk_size - 1) / chunk_size))) :
    P.simulate baseGen sample num_trials chunk_size order
      = P.simulate baseGen sample num_trials chunk_size order2 := by
  rw [Portfolio.simulate, Portfolio.simulate]
  cases hg : collectChunks (fun c =>
      chunkRun P (sample ((deriveStreams baseGen
          ((num_trials + chunk_size - 1) / chunk_size)).getD c 0))
        (chunkTrials num_trials chunk_size c) 0
        (List.replicate P.num_borrower 0))
      (List.range ((num_trials + chunk_size - 1) / chunk_size)) with
  | none => rfl
  | some rs =>
      simp only [Option.map_some']
      rw [foldl_vecAdd_perm (fun c => (rs.getD c ([], [])).2) order order2
        (h1.trans h2.symm) (List.replicate P.num_borrower 0)]

/-- Instance of the order-invariance lemma at the concrete one-borrower
portfolio, two trials in two chunks, with the two possible lock orders. -/
theorem simulate_order_invariant_witness :
    ([0, 1] : List ℕ).Perm (List.range ((2 + 1 - 1) / 1)) ∧
    cexP.simulate (fun _ => 5) (fun _ _ => 0) 2 1 [0, 1]
      = cexP.simulate (fun _ => 5) (fun _ _ => 0) 2 1 [1, 0] :=
  ⟨by decide,
    simulate_order_invariant cexP (fun _ => 5) (fun _ _ => 0) 2 1
      [0, 1] [1, 0] (by decide) (by decide)⟩

/-! Claim C3. -/

/-- C3: `Portfolio::simulate` equals the sequential reference
`simulateSpec`: the trials are partitioned into
`ceil(num_trials/chunk_size)` consecutive chunks of at most `chunk_size`
trials; chunk `c` runs its trials sequentially on the generator of the
`c`-th sequentially derived stream; the `j`-th per-trial entry is the sum
of trial `j`'s per-borrower losses, and the per-borrower vector is the sum
of all per-trial loss vectors divided by `num_trials` — for every lock
order of the parallel merge. -/
theorem simulate_eq_simulateSpec (P : Portfolio nn) (baseGen : ℕ → ℕ)
    (sample : ℕ → ℕ → ℝ) (num_trials chunk_size : ℕ) (order : List ℕ)
    (wf : P.num_borrower = totalBorrowers P)
    (hord : order.Perm
      (List.range ((num_trials + chunk_size - 1) / chunk_size))) :
    P.simulate baseGen sample num_trials chunk_size order
      = P.simulateSpec baseGen sample num_trials chunk_size := by
  rw [Portfolio.simulate, Portfolio.simulateSpec]
  rw [collectChunks_congr (fun c =>
      chunkRun P (sample ((deriveStreams baseGen
          ((num_trials + chunk_size - 1) / chunk_size)).getD c 0))
        (chunkTrials num_trials chunk_size c) 0
        (List.replicate P.num_borrower 0))
    (fun c => (trialSeq P (sample ((deriveStreams baseGen
          ((num_trials + chunk_size - 1) / chunk_size)).getD c 0))
        (chunkTrials num_trials chunk_size c) 0).map fun ls =>
          (ls.map List.sum, ls.foldl vecAdd (List.replicate P.num_borrower 0)))
    (List.range ((num_trials + chunk_size - 1) / chunk_size))
    (fun c _ => chunkRun_eq P _ _ _ _), collectChunks_map_rel]
  cases hg : collectChunks (fun c =>
      trialSeq P (sample ((deriveStreams baseGen
          ((num_trials + chunk_size - 1) / chunk_size)).getD c 0))
        (chunkTrials num_trials chunk_size c) 0)
      (List.range ((num_trials + chunk_size - 1) / chunk_size)) with
  | none => rfl
  | some gls =>
      simp only [Option.map_some']
      have hlen : gls.length
          = ((num_trials + chunk_size - 1) / chunk_size) := by
        rw [collectChunks_length _ _ _ hg, List.length_range]
      have hmem : ∀ ls ∈ gls, ∀ v ∈ ls, v.length = totalBorrowers P := by
        intro ls hls v hv
        obtain ⟨c, _, hc⟩ := collectChunks_mem _ _ _ hg ls hls
        exact (trialSeq_spec P _ _ _ ls hc).2 v hv
      have hshared : (List.range
            ((num_trials + chunk_size - 1) / chunk_size)).foldl
          (fun acc c => vecAdd acc
            ((gls.map fun ls => (ls.map List.sum,
              ls.foldl vecAdd (List.replicate P.num_borrower 0))).getD
                c ([], [])).2)
          (List.replicate P.num_borrower 0)
          = gls.flatten.foldl vecAdd (List.replicate P.num_borrower 0) := by
        rw [foldl_congr_mem _
          (fun acc c => vecAdd acc
            ((gls.getD c []).foldl vecAdd
              (List.replicate P.num_borrower 0)))
          _ _ (fun c hc acc => by
            rw [getD_map_of_lt _ gls c
              (by rw [hlen]; exact List.mem_range.mp hc) []])]
        rw [← hlen, foldl_range_eq_foldl
          (fun acc ls => vecAdd acc
            (ls.foldl vecAdd (List.replicate P.num_borrower 0))) [] gls]
        rw [wf]
        exact foldl_vecAdd_flatten (totalBorrowers P) gls hmem
      rw [foldl_vecAdd_perm (fun c =>
          ((gls.map fun ls => (ls.map List.sum,
            ls.foldl vecAdd (List.replicate P.num_borrower 0))).getD
              c ([], [])).2)
        order _ hord (List.replicate P.num_borrower 0)]
      rw [hshared]
      rw [List.map_map]
      rw [show (Prod.fst ∘ fun ls : List (List ℝ) =>
          (ls.map List.sum, ls.foldl vecAdd
            (List.replicate P.num_borrower 0)))
        = fun ls : List (List ℝ) => ls.map List.sum from rfl]
      rw [← List.map_flatten]

/-- Witness for C3 at the concrete one-borrower portfolio. -/
theorem simulate_eq_simulateSpec_witness :
    cexP.num_borrower = totalBorrowers cexP ∧
    cexP.simulate (fun _ => 5) (fun _ _ => 0) 2 1 [0, 1]
      = cexP.simulateSpec (fun _ => 5) (fun _ _ => 0) 2 1 :=
  ⟨rfl, simulate_eq_simulateSpec cexP (fun _ => 5) (fun _ _ => 0) 2 1
    [0, 1] rfl (by decide)⟩

/-! Claim C8. -/

theorem mkCholL_zero_zero (A : Matrix (Fin (m + 1)) (Fin (m + 1)) ℝ)
    (L : Matrix (Fin m) (Fin m) ℝ) :
    mkCholL A L 0 0 = Real.sqrt (A 0 0) := rfl

theorem mkCholL_zero_succ (A : Matrix (Fin (m + 1)) (Fin (m + 1)) ℝ)
    (L : Matrix (Fin m) (Fin m) ℝ) (j : Fin m) :
    mkCholL A L 0 j.succ = 0 := by
  rw [mkCholL, Matrix.of_apply]
  simp

theorem mkCholL_succ_zero (A : Matrix (Fin (m + 1)) (Fin (m + 1)) ℝ)
    (L : Matrix (Fin m) (Fin m) ℝ) (i : Fin m) :
    mkCholL A L i.succ 0 = A i.succ 0 / Real.sqrt (A 0 0) := by
  rw [mkCholL, Matrix.of_apply]
  simp

theorem mkCholL_succ_succ (A : Matrix (Fin (m + 1)) (Fin (m + 1)) ℝ)
    (L : Matrix (Fin m) (Fin m) ℝ) (i j : Fin m) :
    mkCholL A L i.succ j.succ = L i j := by
  rw [mkCholL, Matrix.of_apply]
  simp

theorem schurC_symm (A : Matrix (Fin (m + 1)) (Fin (m + 1)) ℝ)
    (hA : Symm A) : Symm (schurC A) := by
  intro i j
  rw [schurC, Matrix.of_apply, Matrix.of_apply, hA i.succ j.succ]
  ring

theorem mkCholL_lower (A : Matrix (Fin (m + 1)) (Fin (m + 1)) ℝ)
    (L : Matrix (Fin m) (Fin m) ℝ) (hL : LowerTriangular L) :
    LowerTriangular (mkCholL A L) := by
  intro i j hij
  induction i using Fin.cases with
  | zero =>
      induction j using Fin.cases with
      | zero => exact absurd hij (lt_irrefl _)
      | succ j2 => exact mkCholL_zero_succ A L j2
  | succ i2 =>
      induction j using Fin.cases with
      | zero => exact (Fin.not_lt_zero _ hij).elim
      | succ j2 =>
          rw [mkCholL_succ_succ]
          exact hL i2 j2 (Fin.succ_lt_succ_iff.mp hij)

theorem mkCholL_mul (A : Matrix (Fin (m + 1)) (Fin (m + 1)) ℝ)
    (hA : Symm A) (h : 0 < A 0 0) (L : Matrix (Fin m) (Fin m) ℝ)
    (hL : L * L.transpose = schurC A) :
    mkCholL A L * (mkCholL A L).transpose = A := by
  have hd : Real.sqrt (A 0 0) ≠ 0 := ne_of_gt (Real.sqrt_pos.mpr h)
  ext i j
  rw [Matrix.mul_apply]
  simp only [Matrix.transpose_apply]
  rw [Fin.sum_univ_succ]
  induction i using Fin.cases with
  | zero =>
      induction j using Fin.cases with
      | zero =>
          rw [mkCholL_zero_zero]
          simp only [mkCholL_zero_succ, zero_mul]
          rw [Finset.sum_const_zero, add_zero, Real.mul_self_sqrt h.le]
      | succ j2 =>
          rw [mkCholL_zero_zero, mkCholL_succ_zero]
          simp only [mkCholL_zero_succ, zero_mul]
          rw [Finset.sum_const_zero, add_zero, mul_comm,
            div_mul_cancel₀ _ hd]
          exact (hA 0 j2.succ).symm
  | succ i2 =>
      induction j using Fin.cases with
      | zero =>
          rw [mkCholL_zero_zero, mkCholL_succ_zero]
          simp only [mkCholL_zero_succ, mul_zero]
          rw [Finset.sum_const_zero, add_zero, div_mul_cancel₀ _ hd]
      | succ j2 =>
          rw [mkCholL_succ_zero, mkCholL_succ_zero]
          simp only [mkCholL_succ_succ]
          have hsum : ∑ k : Fin m, L i2 k * L j2 k
              = (L * L.transpose) i2 j2 := by
            rw [Matrix.mul_apply]
            simp [Matrix.transpose_apply]
          rw [hsum, hL, schurC, Matrix.of_apply]
          ring

theorem cholesky_correct : ∀ (m : ℕ) (A : Matrix (Fin m) (Fin m) ℝ),
    Symm A → ∀ L, cholesky m A = some L →
      LowerTriangular L ∧ L * L.transpose = A := by
  intro m
  induction m with
  | zero =>
      intro A hA L h
      rw [cholesky] at h
      have hL := Option.some.inj h
      constructor
      · intro i j hij
        exact i.elim0
      · ext i j
        exact i.elim0
  | succ m ih =>
      intro A hA L h
      rw [cholesky] at h
      by_cases hp : 0 < A 0 0
      · rw [if_pos hp] at h
        cases hS : cholesky m (schurC A) with
        | none => rw [hS] at h; cases h
        | some L2 =>
            rw [hS] at h
            have hL := Option.some.inj h
            obtain ⟨hlow, hmul⟩ := ih (schurC A) (schurC_symm A hA) L2 hS
            rw [← hL]
            exact ⟨mkCholL_lower A L2 hlow, mkCholL_mul A hA hp L2 hmul⟩
      · rw [if_neg hp] at h
        cases h

theorem quadForm_single (A : Matrix (Fin (m + 1)) (Fin (m + 1)) ℝ) :
    quadForm A (Pi.single 0 1) = A 0 0 := by
  rw [quadForm]
  rw [Finset.sum_eq_single 0]
  · rw [Finset.sum_eq_single 0]
    · simp
    · intro j _ hj
      simp [Pi.single_apply, hj]
    · intro h
      exact absurd (Finset.mem_univ _) h
  · intro i _ hi
    simp [Pi.single_apply, hi]
  · intro h
    exact absurd (Finset.mem_univ _) h

theorem posDefR_pivot (A : Matrix (Fin (m + 1)) (Fin (m + 1)) ℝ)
    (hpd : PosDefR A) : 0 < A 0 0 := by
  have hx : (Pi.single 0 1 : Fin (m + 1) → ℝ) ≠ 0 := by
    intro hx0
    have := congrFun hx0 0
    simp at this
  have := hpd (Pi.single 0 1) hx
  rwa [quadForm_single] at this

theorem quadForm_cons (A : Matrix (Fin (m + 1)) (Fin (m + 1)) ℝ)
    (hA : Symm A) (h : 0 < A 0 0) (t : ℝ) (x : Fin m → ℝ) :
    quadForm A (Fin.cons t x)
      = (t * Real.sqrt (A 0 0)
          + ∑ i, A i.succ 0 / Real.sqrt (A 0 0) * x i) ^ 2
        + quadForm (schurC A) x := by
  have hd : Real.sqrt (A 0 0) ≠ 0 := ne_of_gt (Real.sqrt_pos.mpr h)
  have hdd : Real.sqrt (A 0 0) * Real.sqrt (A 0 0) = A 0 0 :=
    Real.mul_self_sqrt h.le
  have e3 : ∀ i : Fin m, (∑ j : Fin m, x i * A i.succ j.succ * x j)
      = (∑ j : Fin m, x i * schurC A i j * x j)
        + (A i.succ 0 / Real.sqrt (A 0 0) * x i)
          * ∑ j : Fin m, A j.succ 0 / Real.sqrt (A 0 0) * x j := by
    intro i
    rw [Finset.mul_sum, ← Finset.sum_add_distrib]
    refine Finset.sum_congr rfl fun j _ => ?_
    rw [schurC, Matrix.of_apply]
    field_simp
    ring
  simp only [quadForm]
  simp only [Fin.sum_univ_succ, Fin.cons_zero, Fin.cons_succ]
  have h1 : (∑ j : Fin m, t * A 0 j.succ * x j)
      = t * Real.sqrt (A 0 0)
        * ∑ i : Fin m, A i.succ 0 / Real.sqrt (A 0 0) * x i := by
    rw [Finset.mul_sum]
    refine Finset.sum_congr rfl fun j _ => ?_
    rw [hA 0 j.succ]
    field_simp
    ring
  have h2 : (∑ i : Fin m, (x i * A i.succ 0 * t
        + ∑ j : Fin m, x i * A i.succ j.succ * x j))
      = t * Real.sqrt (A 0 0)
          * (∑ i : Fin m, A i.succ 0 / Real.sqrt (A 0 0) * x i)
        + ((∑ i : Fin m, ∑ j : Fin m, x i * schurC A i j * x j)
          + (∑ i : Fin m, A i.succ 0 / Real.sqrt (A 0 0) * x i)
            * ∑ i : Fin m, A i.succ 0 / Real.sqrt (A 0 0) * x i) := by
    rw [Finset.sum_add_distrib]
    congr 1
    · rw [Finset.mul_sum]
      refine Finset.sum_congr rfl fun i _ => ?_
      field_simp
      ring
    · rw [Finset.sum_congr rfl fun i _ => e3 i, Finset.sum_add_distrib]
      congr 1
      rw [← Finset.sum_mul]
  rw [h1, h2]
  linear_combination (-(t * t)) * hdd

theorem schurC_posDefR (A : Matrix (Fin (m + 1)) (Fin (m + 1)) ℝ)
    (hA : Symm A) (hpd : PosDefR A) : PosDefR (schurC A) := by
  have h00 : 0 < A 0 0 := posDefR_pivot A hpd
  have hd : Real.sqrt (A 0 0) ≠ 0 := ne_of_gt (Real.sqrt_pos.mpr h00)
  intro x hx
  have hy : Fin.cons (-(∑ i, A i.succ 0 / Real.sqrt (A 0 0) * x i)
      / Real.sqrt (A 0 0)) x ≠ (0 : Fin (m + 1) → ℝ) := by
    intro h0
    refine hx ?_
    funext i
    have := congrFun h0 i.succ
    simpa [Fin.cons_succ] using this
  have hq := hpd _ hy
  rw [quadForm_cons A hA h00] at hq
  have hz : -(∑ i, A i.succ 0 / Real.sqrt (A 0 0) * x i)
      / Real.sqrt (A 0 0) * Real.sqrt (A 0 0)
      + ∑ i, A i.succ 0 / Real.sqrt (A 0 0) * x i = 0 := by
    rw [div_mul_cancel₀ _ hd]
    ring
  rw [hz] at hq
  simpa using hq

theorem cholesky_isSome_of_posDefR : ∀ (m : ℕ)
    (A : Matrix (Fin m) (Fin m) ℝ), Symm A → PosDefR A →
    ∃ L, cholesky m A = some L := by
  intro m
  induction m with
  | zero =>
      intro A _ _
      exact ⟨0, rfl⟩
  | succ m ih =>
      intro A hA hpd
      have h00 : 0 < A 0 0 := posDefR_pivot A hpd
      obtain ⟨L2, hL2⟩ := ih (schurC A) (schurC_symm A hA)
        (schurC_posDefR A hA hpd)
      refine ⟨mkCholL A L2, ?_⟩
      rw [cholesky, if_pos h00, hL2]
      rfl

/-- C8: `Portfolio::new` computes a lower-triangular factor `L` with
`L·Lᵗ = Σ` — exactly, in the real-valued model — whenever the symmetric
matrix `Σ` is positive definite; whenever construction succeeds the stored
factor satisfies `L·Lᵗ = Σ`; and when `Σ` admits no lower-triangular
factorization at all, construction fails (returns `none`, the
`NonPositiveSemiDefiniteError` panic) before any simulation can run. -/
theorem portfolio_new_cholesky (A : Matrix (Fin nn) (Fin nn) ℝ)
    (hA : Symm A) :
    (PosDefR A → ∃ P : Portfolio nn, Portfolio.new A = some P ∧
      LowerTriangular P.lower ∧ P.lower * P.lower.transpose = A) ∧
    (∀ P : Portfolio nn, Portfolio.new A = some P →
      LowerTriangular P.lower ∧ P.lower * P.lower.transpose = A) ∧
    ((¬ ∃ L : Matrix (Fin nn) (Fin nn) ℝ,
        LowerTriangular L ∧ L * L.transpose = A) →
      Portfolio.new A = none) := by
  refine ⟨?_, ?_, ?_⟩
  · intro hpd
    obtain ⟨L, hL⟩ := cholesky_isSome_of_posDefR nn A hA hpd
    obtain ⟨hlow, hmul⟩ := cholesky_correct nn A hA L hL
    refine ⟨{ cov := A, lower := L, risk_group := [], num_borrower := 0 },
      ?_, hlow, hmul⟩
    rw [Portfolio.new, hL]
    rfl
  · intro P hP
    rw [Portfolio.new] at hP
    cases hc : cholesky nn A with
    | none => rw [hc] at hP; cases hP
    | some L =>
        rw [hc] at hP
        have hPL := Option.some.inj hP
        obtain ⟨hlow, hmul⟩ := cholesky_correct nn A hA L hc
        have hPl : P.lower = L := by rw [← hPL]
        rw [hPl]
        exact ⟨hlow, hmul⟩
  · intro hno
    cases hc : cholesky nn A with
    | none =>
        rw [Portfolio.new, hc]
        rfl
    | some L =>
        exfalso
        obtain ⟨hlow, hmul⟩ := cholesky_correct nn A hA L hc
        exact hno ⟨L, hlow, hmul⟩

/-- Witness for C8 at the concrete symmetric positive-definite 1×1
covariance matrix `[[4]]`. -/
theorem portfolio_new_cholesky_witness :
    Symm (Matrix.of ![![(4 : ℝ)]]) ∧
    (∃ P : Portfolio 1, Portfolio.new (Matrix.of ![![(4 : ℝ)]]) = some P ∧
      LowerTriangular P.lower ∧
      P.lower * P.lower.transpose = Matrix.of ![![(4 : ℝ)]]) := by
  have hsym : Symm (Matrix.of ![![(4 : ℝ)]]) := by
    intro i j
    fin_cases i
    fin_cases j
    rfl
  refine ⟨hsym, (portfolio_new_cholesky _ hsym).1 ?_⟩
  intro x hx
  have hx0 : x 0 ≠ 0 := by
    intro h0
    refine hx ?_
    funext i
    fin_cases i
    exact h0
  rw [quadForm, Fin.sum_univ_one, Fin.sum_univ_one]
  rw [show Matrix.of ![![(4 : ℝ)]] 0 0 = 4 from rfl]
  rw [show x 0 * 4 * x 0 = 4 * (x 0 * x 0) from by ring]
  exact mul_pos (by norm_num) (mul_self_pos.mpr hx0)

end CreditPortfolio
